import Mathlib

/-!
Verification of the lib-blockchain repository.

The repository contains two variants of the same blockchain engine in
`src/Blockchain/Blockchain.ts`:
  * a JSON-store variant (`Blockchain<BlockType>` with `createGenesisBlock`,
    `addBlock`, `replaceBlockchain`, `blockchainingIsInvalid` and the real
    `LockMutex` from `src/Mutex/LockMutex.ts`), and
  * a binary-codec variant (`Blockchain` with `genesis`, `push`, `replace`,
    `validate`, `performValidation`, `encodeBlock`, `decodeBlock`,
    `calculateBlockHash`, and a vestigial `isLocked` flag whose `acquire`
    polls `!isLocked` but never sets it).

Both are embedded below.  LevelDB is modelled as a sorted association list
keyed by the block index: keys are written with `writeUInt32BE`, so for
indices below 2^32 the lexicographic byte order used by the store agrees
with numeric order.  SHA-256 is kept abstract: every operation is
parametrised by a digest function `H : List Nat → String` applied to the
exact preimage bytes the source assembles.
-/

/-! ## Byte-level helpers (Buffer reads/writes) -/

/-- Big-endian 4-byte encoding, `Buffer.writeUInt32BE`.  The source throws a
`RangeError` for values outside `[0, 2^32)`; all uses below stay in range. -/
def uint2b (n : Nat) : List Nat :=
  [n / 16777216 % 256, n / 65536 % 256, n / 256 % 256, n % 256]

/-- Big-endian 8-byte encoding, `Buffer.writeBigUInt64BE`. -/
def uint642b (n : Nat) : List Nat :=
  [n / 72057594037927936 % 256, n / 281474976710656 % 256,
   n / 1099511627776 % 256, n / 4294967296 % 256,
   n / 16777216 % 256, n / 65536 % 256, n / 256 % 256, n % 256]

/-- Big-endian unsigned read of a byte list (`readUInt32BE`/`readBigUInt64BE`
restricted to the extracted slice). -/
def readBE (bs : List Nat) : Nat :=
  bs.foldl (fun a b => a * 256 + b) 0

/-- Signed big-endian 32-bit read, `Buffer.readInt32BE`: a leading byte of
128 or more makes the value negative. -/
def int32ofBE (bs : List Nat) : Int :=
  let u := readBE bs
  if u < 2147483648 then (u : Int) else (u : Int) - 4294967296

/-! ## Hex strings (`Buffer.from(s, 'hex')` and `buf.toString('hex')`) -/

/-- Hex digit value accepted by `Buffer.from(_, 'hex')`: the ASCII ranges
`0-9`, `a-f` and `A-F`. -/
def hexDigitVal (c : Char) : Option Nat :=
  if 48 ≤ c.toNat ∧ c.toNat ≤ 57 then some (c.toNat - 48)
  else if 97 ≤ c.toNat ∧ c.toNat ≤ 102 then some (c.toNat - 87)
  else if 65 ≤ c.toNat ∧ c.toNat ≤ 70 then some (c.toNat - 55)
  else none

/-- Character pairs to bytes; `Buffer.from(_, 'hex')` stops at the first
invalid pair and drops a trailing lone digit. -/
def hexPairs : List Char → List Nat
  | c1 :: c2 :: rest =>
    match hexDigitVal c1, hexDigitVal c2 with
    | some h, some l => (16 * h + l) :: hexPairs rest
    | _, _ => []
  | _ => []

/-- Decode a hex string to raw bytes, `Buffer.from(s, 'hex')`. -/
def hexDecode (s : String) : List Nat := hexPairs s.data

/-- Lowercase hex digit used by `buf.toString('hex')` for a nibble. -/
def toHexDigit (n : Nat) : Char :=
  Char.ofNat (if n < 10 then 48 + n else 87 + n)

/-- Bytes to lowercase hex characters. -/
def hexOfBytes : List Nat → List Char
  | [] => []
  | b :: rest => toHexDigit (b / 16 % 16) :: toHexDigit (b % 16) :: hexOfBytes rest

/-- Encode raw bytes as a lowercase hex string, `buf.toString('hex')`. -/
def hexEncode (bs : List Nat) : String := ⟨hexOfBytes bs⟩

/-- The sixteen characters `buf.toString('hex')` can produce. -/
def lowerHexChars : List Char :=
  (List.range 16).map toHexDigit

/-- A 64-character lowercase hex string (a rendered 256-bit digest). -/
def LowerHex64 (s : String) : Prop :=
  s.data.length = 64 ∧ ∀ c ∈ s.data, c ∈ lowerHexChars

instance : DecidablePred LowerHex64 := fun s => by
  unfold LowerHex64; infer_instance

/-! ## The binary-variant `Block` (src/Blockchain/types.ts, second part) -/

/-- Block record of the binary variant: `index` is an `Int` because
`decodeBlock` reads it back with the signed `readInt32BE`; `data` is the raw
payload bytes of the `Buffer`. -/
structure Block where
  index : Int
  timestamp : Nat
  hash : String
  previousHash : String
  data : List Nat
deriving DecidableEq

/-! ## Codec (`encodeBlock` / `decodeBlock`) -/

/-- Wire encoding of a block:
`[4-byte BE index][8-byte BE timestamp][32-byte hash][32-byte previousHash]
[8-byte BE data length][data]`.  `none` models the `RangeError` thrown by
`writeUInt32BE`/`writeBigUInt64BE` on out-of-range numbers. -/
def encodeBlock (b : Block) : Option (List Nat) :=
  if 0 ≤ b.index ∧ b.index < 4294967296 ∧ b.timestamp < 18446744073709551616
      ∧ b.data.length < 18446744073709551616 then
    some (uint2b b.index.toNat ++ uint642b b.timestamp ++ hexDecode b.hash
      ++ hexDecode b.previousHash ++ uint642b b.data.length ++ b.data)
  else
    none

/-- Wire decoding.  The source first evaluates `buffer.readBigUInt64BE(76)`,
which throws (`none` here) whenever the buffer is shorter than 84 bytes;
afterwards every read is in range and `buffer.slice(84, 84 + dataLength)`
clamps to the available bytes. -/
def decodeBlock (buf : List Nat) : Option Block :=
  if buf.length < 84 then none
  else
    some { index := int32ofBE (buf.take 4)
           timestamp := readBE ((buf.drop 4).take 8)
           hash := hexEncode ((buf.drop 12).take 32)
           previousHash := hexEncode ((buf.drop 44).take 32)
           data := (buf.drop 84).take (readBE ((buf.drop 76).take 8)) }

/-! ## Hasher (`calculateBlockHash`) -/

/-- Preimage bytes of `calculateBlockHash`: the concatenation of
`uint2b(index)`, `uint642b(timestamp)`, `Buffer.from(previousHash, 'hex')`
and `data`.  The `hash` field is not read.  The source's `uint2b` and
`uint642b` throw a `RangeError` outside `[0, 2^32)` / `[0, 2^64)`; that
throw is modelled by `calculateBlockHashE` below, and this total function
gives the preimage on the non-throwing range (every use in a proved
theorem is guarded to that range). -/
def hashPreimage (b : Block) : List Nat :=
  uint2b b.index.toNat ++ uint642b b.timestamp ++ hexDecode b.previousHash ++ b.data

/-- Digest of a block: the abstract SHA-256 `H` applied to the preimage. -/
def calculateBlockHash (H : List Nat → String) (b : Block) : String :=
  H (hashPreimage b)

/-! ## The LevelDB store

Modelled as an association list strictly sorted by key.  Keys are the
`writeUInt32BE`-encoded block indices, so for indices below 2^32 the store's
lexicographic byte order coincides with numeric order on `Nat` keys. -/

/-- A LevelDB instance holding values of type `α`. -/
abbrev Store (α : Type) := List (Nat × α)

/-- Point lookup, `db.get(encodeKey(i))`; `none` models the not-found error. -/
def storeGet {α : Type} : Store α → Nat → Option α
  | [], _ => none
  | (k, b) :: rest, i => if i = k then some b else storeGet rest i

/-- Point write, `db.put(encodeKey(k), b)`: inserts in key order,
overwriting an existing entry for the same key. -/
def storePut {α : Type} : Store α → Nat → α → Store α
  | [], k, b => [(k, b)]
  | (k', b') :: rest, k, b =>
    if k < k' then (k, b) :: (k', b') :: rest
    else if k = k' then (k, b) :: rest
    else (k', b') :: storePut rest k b

/-- Well-formedness: keys strictly ascend, as in LevelDB's sorted keyspace. -/
def StoreWF {α : Type} (st : Store α) : Prop :=
  List.Pairwise (fun p q => p.1 < q.1) st

/-- The keys present are exactly `0, …, length-1` (every chain the engine
builds by `genesis`/`push` has this shape). -/
def Contig {α : Type} (st : Store α) : Prop :=
  ∀ k, k < st.length ↔ (storeGet st k).isSome

/-- Chain length, `length()`: counts the keys streamed from `encodeKey(0)`
upward, which is every key of the store. -/
def storeLen {α : Type} (st : Store α) : Nat := st.length

/-- Last block, `getLastBlock()`: `null` on an empty chain, otherwise the
entry at key `length() - 1`.  On a non-empty store missing that key the
source's `db.get` rejects instead; the engine only ever builds contiguous
stores (`Contig`), where that path is unreachable, and every theorem below
reads a last block only out of a `GoodChain` store. -/
def getLastBlock {α : Type} (st : Store α) : Option α :=
  if st.length = 0 then none else storeGet st (st.length - 1)

/-! ## Binary-variant chain engine -/

namespace Blockchain

/-- The genesis `previousHash` sentinel of the binary variant. -/
def zeros64 : String := ⟨List.replicate 64 '0'⟩

/-- Mutable instance state: the database plus the `isReplacing` flag.  The
binary variant's `isLocked` flag is omitted because no code path ever
assigns it `true` (`acquire` only polls `!isLocked` and `release` writes
`false`), so `acquire` always resolves and the flag stays `false`. -/
structure State where
  store : Store Block
  isReplacing : Bool
deriving DecidableEq

/-- A freshly constructed chain over an empty database. -/
def initChain : State := ⟨[], false⟩

/-- Errors surfaced by the mutating operations.  `rangeError` models the
`RangeError` thrown by `writeUInt32BE`/`writeBigUInt64BE` on out-of-range
numbers, which rejects the operation's promise. -/
inductive ChainError where
  | noGenesis
  | tooShort
  | invalidChain
  | rangeError
deriving DecidableEq

/-- The `genesis` operation: a no-op returning `null` when a last block
exists, otherwise it writes the genesis block (index 0, all-zero
`previousHash`, payload `genesisData`) at key 0 and returns it. -/
def genesis (H : List Nat → String) (genesisData : List Nat) (now : Nat)
    (s : State) : Option Block × State :=
  match getLastBlock s.store with
  | some _ => (none, s)
  | none =>
    let g0 : Block :=
      { data := genesisData, hash := "", index := 0, previousHash := zeros64,
        timestamp := now }
    let g : Block := { g0 with hash := calculateBlockHash H g0 }
    (some g, ⟨storePut s.store 0 g, s.isReplacing⟩)

/-- The `push` operation: fails without a genesis block, otherwise builds a
block with `index = last.index + 1`, `previousHash = last.hash`, the given
payload and timestamp, hashes it and persists it under its index. -/
def push (H : List Nat → String) (d : List Nat) (now : Nat) (s : State) :
    Except ChainError (Block × State) :=
  match getLastBlock s.store with
  | none => .error .noGenesis
  | some last =>
    let nb0 : Block :=
      { data := d, hash := "", previousHash := last.hash,
        index := last.index + 1, timestamp := now }
    let nb : Block := { nb0 with hash := calculateBlockHash H nb0 }
    .ok (nb, ⟨storePut s.store nb.index.toNat nb, s.isReplacing⟩)

/-- Per-block check `performValidation` (result `true` means *invalid*):
recomputed-hash mismatch; then, unless the payload equals `genesisData`,
`previousHash` must match `previousBlock?.hash` and the timestamp must be
strictly above `prevMemBlock`'s.  The optional `onValidateFn` is `null`. -/
def performValidation (H : List Nat → String) (genesisData : List Nat)
    (currentBlock previousBlock prevMemBlock : Option Block) : Bool :=
  match currentBlock with
  | none => true
  | some c =>
    if c.hash ≠ calculateBlockHash H c then true
    else if c.data = genesisData then false
    else
      match previousBlock with
      | none => true
      | some p =>
        if c.previousHash ≠ p.hash then true
        else
          match prevMemBlock with
          | none => true
          | some pm => decide (pm.timestamp ≥ c.timestamp)

/-- Loop body of `validate`: iterates `k` more indices starting at `i`,
carrying the last block that passed (`prevMemBlock`); `previousBlock` falls
back to the stored predecessor (`at(i-1)`, which is `null` for `i = 0`). -/
def validateAux (H : List Nat → String) (gd : List Nat) (st : Store Block) :
    Nat → Nat → Option Block → Bool
  | 0, _, _ => true
  | k + 1, i, prevMem =>
    let currentBlock := storeGet st i
    let previousBlock :=
      prevMem.orElse (fun _ => if i = 0 then none else storeGet st (i - 1))
    if performValidation H gd currentBlock previousBlock prevMem then false
    else
      validateAux H gd st k (i + 1) (currentBlock.orElse (fun _ => prevMem))

/-- The `validate(fromIndex)` operation. -/
def validate (H : List Nat → String) (gd : List Nat) (s : State)
    (fromIndex : Nat) : Bool :=
  validateAux H gd s.store (s.store.length - fromIndex) fromIndex none

/-- Sequential driver: performs the given `(payload, timestamp)` appends in
order; `none` if some append fails. -/
def pushSeq (H : List Nat → String) : State → List (List Nat × Nat) → Option State
  | s, [] => some s
  | s, (d, t) :: rest =>
    match push H d t s with
    | .ok (_, s') => pushSeq H s' rest
    | .error _ => none

/-- A fresh chain after `genesis` at time `t0` followed by the given
sequential appends. -/
def runChain (H : List Nat → String) (gd : List Nat) (t0 : Nat)
    (ps : List (List Nat × Nat)) : Option State :=
  pushSeq H (genesis H gd t0 initChain).2 ps

end Blockchain

/-! ## JSON-store variant with the real `LockMutex`

`LockMutex.acquire` really marks the lock held (`locked := true`) and
suspends further callers until `release()`.  In a sequential run an
operation that starts while the lock is held never resumes (nobody else
will release it); that outcome is modelled as `none`.  The hash callback
`onHash` is `sha256(JSON.stringify(allFieldsExcept 'hash'))`; it is kept
abstract as a function `HJ` of the four non-hash fields. -/

namespace BlockchainJ

/-- Payload of the JSON variant: the genesis sentinel object
`{ genesis: true }` or an application string payload (as in the tests). -/
inductive JData where
  | genesisData : JData
  | payload : String → JData
deriving DecidableEq

/-- JSON-variant block: `previousHash` is `null` (`none`) on the genesis
block. -/
structure JBlock where
  index : Int
  timestamp : Nat
  hash : String
  previousHash : Option String
  data : JData
deriving DecidableEq

/-- Abstract `onHash`: a digest of every field except `hash`. -/
abbrev HashFn := Int → Nat → Option String → JData → String

/-- Digest of a block under `onHash` (the `hash` field is skipped when the
preimage object is assembled). -/
def onHash (HJ : HashFn) (b : JBlock) : String :=
  HJ b.index b.timestamp b.previousHash b.data

/-- Instance state: database, the `LockMutex`'s `locked` flag, and the
`isReplacing` flag. -/
structure JState where
  store : Store JBlock
  locked : Bool
  isReplacing : Bool
deriving DecidableEq

/-- A freshly constructed chain: empty database, lock free. -/
def initChain : JState := ⟨[], false, false⟩

/-- Errors of the JSON-variant mutating operations. -/
inductive JError where
  | tooShort
  | invalidChain
deriving DecidableEq

/-- The `createGenesisBlock` operation.  `none`: the caller blocked forever
in `acquire`.  When a last block already exists the source returns `null`
while still holding the lock (no `release()` before the early `return`);
on the creation path it persists the genesis block and releases. -/
def createGenesisBlock (HJ : HashFn) (now : Nat) (s : JState) :
    Option (Option JBlock × JState) :=
  if s.locked then none
  else
    match getLastBlock s.store with
    | some _ => some (none, ⟨s.store, true, s.isReplacing⟩)
    | none =>
      let g0 : JBlock :=
        { data := .genesisData, hash := "", index := 0, previousHash := none,
          timestamp := now }
      let g : JBlock := { g0 with hash := onHash HJ g0 }
      some (some g, ⟨storePut s.store 0 g, false, s.isReplacing⟩)

/-- The `addBlock` operation.  Without a genesis block the `throw` happens
inside the `async` promise executor, so the returned promise never settles
(`none`) and the lock stays held.  On success the block is persisted and
the promise resolves, but `addBlock` contains no `release()` call at all,
so the lock is still held when it completes. -/
def addBlock (HJ : HashFn) (d : String) (now : Nat) (s : JState) :
    Option (JBlock × JState) :=
  if s.locked then none
  else
    match getLastBlock s.store with
    | none => none
    | some last =>
      let nb0 : JBlock :=
        { data := .payload d, hash := "", previousHash := some last.hash,
          index := last.index + 1, timestamp := now }
      let nb : JBlock := { nb0 with hash := onHash HJ nb0 }
      some (nb, ⟨storePut s.store nb.index.toNat nb, true, s.isReplacing⟩)

/-- Per-block check `blockchainingIsInvalid` (`true` means invalid).  The
genesis exemption tests `data?.genesis` (payload shape); a `null`
`previousBlock` makes the linkage comparison fail because
`x !== undefined` holds for both a string and `null`. -/
def blockchainingIsInvalid (HJ : HashFn)
    (currentBlock previousBlock prevMemBlock : Option JBlock) : Bool :=
  match currentBlock with
  | none => true
  | some c =>
    if c.hash ≠ onHash HJ c then true
    else
      match c.data with
      | .genesisData => false
      | .payload _ =>
        match previousBlock with
        | none => true
        | some p =>
          if c.previousHash ≠ some p.hash then true
          else
            match prevMemBlock with
            | none => true
            | some pm => decide (pm.timestamp ≥ c.timestamp)

/-- Loop of `validateIncomingBlocks`; as in the binary variant, both the
`previousBlock` fallback and `prevMemBlock` coincide along the list. -/
def validateIncomingAux (HJ : HashFn) : Option JBlock → List JBlock → Bool
  | _, [] => true
  | prevMem, b :: rest =>
    if blockchainingIsInvalid HJ (some b) prevMem prevMem then false
    else validateIncomingAux HJ (some b) rest

/-- Whole-list validation used by `replaceBlockchain`. -/
def validateIncomingBlocks (HJ : HashFn) (blocks : List JBlock) : Bool :=
  validateIncomingAux HJ none blocks

/-- Write loop of `replaceBlockchain` (same shape as the binary variant). -/
def replaceLoop (HJ : HashFn) (blocks : List JBlock) (st : Store JBlock) :
    List JBlock → Option JError × Store JBlock
  | [] => (none, st)
  | b :: rest =>
    if validateIncomingBlocks HJ blocks then
      replaceLoop HJ blocks (storePut st b.index.toNat b) rest
    else (some .invalidChain, st)

/-- The `replaceBlockchain` operation.  The too-short guard `throw`s right
after `acquire`, before any `release()`, so that error path leaves the
lock held; the invalid-chain path releases the lock but leaves
`isReplacing` set; success clears both. -/
def replaceBlockchain (HJ : HashFn) (blocks : List JBlock) (s : JState) :
    Option (Except JError Unit × JState) :=
  if s.locked then none
  else if s.store.length > blocks.length then
    some (.error .tooShort, ⟨s.store, true, s.isReplacing⟩)
  else
    match replaceLoop HJ blocks s.store blocks with
    | (none, st') => some (.ok (), ⟨st', false, false⟩)
    | (some e, st') => some (.error e, ⟨st', false, true⟩)

end BlockchainJ

/-! ## Lemmas about bytes and hex -/

theorem readBE_uint2b (n : Nat) (h : n < 4294967296) : readBE (uint2b n) = n := by
  simp only [readBE, uint2b, List.foldl_cons, List.foldl_nil]
  omega

theorem readBE_uint642b (n : Nat) (h : n < 18446744073709551616) :
    readBE (uint642b n) = n := by
  simp only [readBE, uint642b, List.foldl_cons, List.foldl_nil]
  omega

theorem int32ofBE_uint2b (n : Nat) (h : n < 2147483648) :
    int32ofBE (uint2b n) = (n : Int) := by
  have h32 : n < 4294967296 := by omega
  simp [int32ofBE, readBE_uint2b n h32, h]

theorem uint2b_length (n : Nat) : (uint2b n).length = 4 := rfl

theorem uint642b_length (n : Nat) : (uint642b n).length = 8 := rfl

theorem hexchar_recon :
    ∀ c ∈ lowerHexChars,
      ∃ v, hexDigitVal c = some v ∧ v < 16 ∧ toHexDigit v = c := by
  intro c hc
  unfold lowerHexChars at hc
  obtain ⟨v, hv, rfl⟩ := List.mem_map.mp hc
  have h16 : v < 16 := List.mem_range.mp hv
  exact ⟨v,
    (by decide : ∀ w, w < 16 → hexDigitVal (toHexDigit w) = some w) v h16,
    h16, rfl⟩

theorem hexOfBytes_hexPairs :
    ∀ cs : List Char, (∀ c ∈ cs, c ∈ lowerHexChars) → cs.length % 2 = 0 →
      hexOfBytes (hexPairs cs) = cs
  | [], _, _ => rfl
  | [c], _, h2 => by simp at h2
  | c1 :: c2 :: rest, h1, h2 => by
    obtain ⟨v1, e1, lt1, t1⟩ := hexchar_recon c1 (h1 c1 (by simp))
    obtain ⟨v2, e2, lt2, t2⟩ := hexchar_recon c2 (h1 c2 (by simp))
    have hrest : rest.length % 2 = 0 := by
      simp only [List.length_cons] at h2; omega
    have ih := hexOfBytes_hexPairs rest
      (fun c hc => h1 c (by simp [hc])) hrest
    simp only [hexPairs, e1, e2, hexOfBytes]
    have hdiv : (16 * v1 + v2) / 16 % 16 = v1 := by omega
    have hmod : (16 * v1 + v2) % 16 = v2 := by omega
    rw [hdiv, hmod, t1, t2, ih]

theorem hexPairs_length :
    ∀ cs : List Char, (∀ c ∈ cs, c ∈ lowerHexChars) →
      (hexPairs cs).length = cs.length / 2
  | [], _ => rfl
  | [c], _ => by simp [hexPairs]
  | c1 :: c2 :: rest, h1 => by
    obtain ⟨v1, e1, _, _⟩ := hexchar_recon c1 (h1 c1 (by simp))
    obtain ⟨v2, e2, _, _⟩ := hexchar_recon c2 (h1 c2 (by simp))
    have ih := hexPairs_length rest (fun c hc => h1 c (by simp [hc]))
    simp only [hexPairs, e1, e2, List.length_cons, ih]
    omega

theorem hexDecode_length_of_lowerHex64 (s : String) (h : LowerHex64 s) :
    (hexDecode s).length = 32 := by
  obtain ⟨hlen, hmem⟩ := h
  simp [hexDecode, hexPairs_length s.data hmem, hlen]

theorem hexEncode_hexDecode (s : String) (h : LowerHex64 s) :
    hexEncode (hexDecode s) = s := by
  obtain ⟨hlen, hmem⟩ := h
  obtain ⟨d⟩ := s
  simp only [hexEncode, hexDecode]
  rw [hexOfBytes_hexPairs d hmem (by simp_all)]

/-! ## Lemmas about the store -/

theorem storeGet_storePut {α : Type} (st : Store α) (k : Nat) (b : α) (i : Nat) :
    storeGet (storePut st k b) i = if i = k then some b else storeGet st i := by
  induction st with
  | nil => rfl
  | cons p rest ih =>
    obtain ⟨k', b'⟩ := p
    by_cases h1 : k < k'
    · simp only [storePut, if_pos h1]
      rfl
    · by_cases h2 : k = k'
      · subst h2
        simp only [storePut, if_neg h1, if_pos rfl]
        by_cases hik : i = k <;> simp [storeGet, hik]
      · simp only [storePut, if_neg h1, if_neg h2]
        by_cases hik' : i = k'
        · subst hik'
          have : ¬ i = k := fun h => h2 h.symm
          simp [storeGet, this]
        · simp [storeGet, hik', ih]

theorem storeGet_mem {α : Type} :
    ∀ (st : Store α) (i : Nat) (b : α), storeGet st i = some b → (i, b) ∈ st
  | [], _, _, h => by simp [storeGet] at h
  | (k, v) :: rest, i, b, h => by
    by_cases hik : i = k
    · subst hik
      simp only [storeGet, eq_self_iff_true, if_true, Option.some.injEq] at h
      subst h; exact List.mem_cons_self _ _
    · simp only [storeGet, if_neg hik] at h
      exact List.mem_cons_of_mem _ (storeGet_mem rest i b h)

theorem storeGet_eq_none_of_lt {α : Type} :
    ∀ (st : Store α) (k : Nat), (∀ q ∈ st, k < q.1) → storeGet st k = none
  | [], _, _ => rfl
  | (k', b') :: rest, k, h => by
    have hk : k < k' := h (k', b') (List.mem_cons_self _ _)
    have : ¬ k = k' := by omega
    simp only [storeGet, if_neg this]
    exact storeGet_eq_none_of_lt rest k (fun q hq => h q (List.mem_cons_of_mem _ hq))

theorem storePut_mem_key {α : Type} :
    ∀ (st : Store α) (k : Nat) (b : α) (q : Nat × α),
      q ∈ storePut st k b → q.1 = k ∨ q ∈ st
  | [], k, b, q, h => by
    simp only [storePut, List.mem_singleton] at h
    subst h; exact Or.inl rfl
  | (k', b') :: rest, k, b, q, h => by
    by_cases h1 : k < k'
    · simp only [storePut, if_pos h1, List.mem_cons] at h
      rcases h with h | h | h
      · subst h; exact Or.inl rfl
      · exact Or.inr (by simp [h])
      · exact Or.inr (List.mem_cons_of_mem _ h)
    · by_cases h2 : k = k'
      · simp only [storePut, if_neg h1, if_pos h2, List.mem_cons] at h
        rcases h with h | h
        · subst h; exact Or.inl rfl
        · exact Or.inr (List.mem_cons_of_mem _ h)
      · simp only [storePut, if_neg h1, if_neg h2, List.mem_cons] at h
        rcases h with h | h
        · exact Or.inr (by simp [h])
        · rcases storePut_mem_key rest k b q h with h' | h'
          · exact Or.inl h'
          · exact Or.inr (List.mem_cons_of_mem _ h')

theorem storePut_WF {α : Type} :
    ∀ (st : Store α) (k : Nat) (b : α), StoreWF st → StoreWF (storePut st k b)
  | [], k, b, _ => by simp [storePut, StoreWF]
  | (k', b') :: rest, k, b, h => by
    have hhead := (List.pairwise_cons.mp h).1
    have htail := (List.pairwise_cons.mp h).2
    by_cases h1 : k < k'
    · simp only [storePut, if_pos h1]
      refine List.pairwise_cons.mpr ⟨?_, h⟩
      intro q hq
      rcases List.mem_cons.mp hq with h' | h'
      · subst h'; exact h1
      · exact lt_trans h1 (hhead q h')
    · by_cases h2 : k = k'
      · subst h2
        simp only [storePut, if_neg h1, if_pos rfl]
        exact List.pairwise_cons.mpr ⟨hhead, htail⟩
      · simp only [storePut, if_neg h1, if_neg h2]
        refine List.pairwise_cons.mpr ⟨?_, storePut_WF rest k b htail⟩
        intro q hq
        rcases storePut_mem_key rest k b q hq with h' | h'
        · rw [h']; omega
        · exact hhead q h'

theorem storePut_length_of_fresh {α : Type} :
    ∀ (st : Store α) (k : Nat) (b : α), storeGet st k = none →
      (storePut st k b).length = st.length + 1
  | [], _, _, _ => rfl
  | (k', b') :: rest, k, b, h => by
    have hne : ¬ k = k' := by
      intro he
      subst he
      simp [storeGet] at h
    simp only [storeGet, if_neg hne] at h
    by_cases h1 : k < k'
    · simp [storePut, h1]
    · simp [storePut, h1, hne, storePut_length_of_fresh rest k b h]

theorem storePut_length_of_present {α : Type} :
    ∀ (st : Store α) (k : Nat) (b : α), StoreWF st → (storeGet st k).isSome →
      (storePut st k b).length = st.length
  | [], _, _, _, h => by simp [storeGet] at h
  | (k', b') :: rest, k, b, hwf, h => by
    by_cases h2 : k = k'
    · subst h2
      have : ¬ k < k := by omega
      simp [storePut, this]
    · simp only [storeGet, if_neg h2] at h
      obtain ⟨v, hv⟩ := Option.isSome_iff_exists.mp h
      have hmem := storeGet_mem rest k v hv
      have hk'k : k' < k := (List.pairwise_cons.mp hwf).1 (k, v) hmem
      have h1 : ¬ k < k' := by omega
      simp [storePut, h1, h2,
        storePut_length_of_present rest k b (List.pairwise_cons.mp hwf).2 h]

theorem store_ext {α : Type} :
    ∀ (s t : Store α), StoreWF s → StoreWF t →
      (∀ i, storeGet s i = storeGet t i) → s = t
  | [], [], _, _, _ => rfl
  | [], (k, b) :: t', _, _, hext => by
    have h := hext k
    simp [storeGet] at h
  | (k, b) :: s', [], _, _, hext => by
    have h := hext k
    simp [storeGet] at h
  | (k1, b1) :: s', (k2, b2) :: t', hs, ht, hext => by
    have hs1 := (List.pairwise_cons.mp hs).1
    have hs2 := (List.pairwise_cons.mp hs).2
    have ht1 := (List.pairwise_cons.mp ht).1
    have ht2 := (List.pairwise_cons.mp ht).2
    have hk : k1 = k2 := by
      by_contra hne
      have e1 : storeGet ((k2, b2) :: t') k1 = some b1 := by
        rw [← hext k1]; simp [storeGet]
      have e2 : storeGet ((k1, b1) :: s') k2 = some b2 := by
        rw [hext k2]; simp [storeGet]
      have hne' : ¬ k2 = k1 := fun h => hne h.symm
      simp only [storeGet, if_neg hne] at e1
      simp only [storeGet, if_neg hne'] at e2
      have m1 := storeGet_mem t' k1 b1 e1
      have m2 := storeGet_mem s' k2 b2 e2
      have l1 := ht1 (k1, b1) m1
      have l2 := hs1 (k2, b2) m2
      simp at l1 l2
      omega
    subst hk
    have hb : b1 = b2 := by
      have h := hext k1
      simp [storeGet] at h
      exact h
    subst hb
    have htails : ∀ i, storeGet s' i = storeGet t' i := by
      intro i
      by_cases hik : i = k1
      · subst hik
        rw [storeGet_eq_none_of_lt s' i (fun q hq => hs1 q hq),
          storeGet_eq_none_of_lt t' i (fun q hq => ht1 q hq)]
      · have h := hext i
        simp only [storeGet, if_neg hik] at h
        exact h
    rw [store_ext s' t' hs2 ht2 htails]

/-- The store whose entries are `(j, bs[0]), (j+1, bs[1]), …`. -/
def enumChain {α : Type} : Nat → List α → Store α
  | _, [] => []
  | j, b :: rest => (j, b) :: enumChain (j + 1) rest

theorem enumChain_key_ge {α : Type} :
    ∀ (bs : List α) (j : Nat) (q : Nat × α), q ∈ enumChain j bs → j ≤ q.1
  | [], _, _, h => by simp [enumChain] at h
  | b :: rest, j, q, h => by
    simp only [enumChain, List.mem_cons] at h
    rcases h with h | h
    · simp [h]
    · have := enumChain_key_ge rest (j + 1) q h
      omega

theorem enumChain_WF {α : Type} :
    ∀ (bs : List α) (j : Nat), StoreWF (enumChain j bs)
  | [], _ => List.Pairwise.nil
  | b :: rest, j => by
    refine List.pairwise_cons.mpr ⟨?_, enumChain_WF rest (j + 1)⟩
    intro q hq
    have := enumChain_key_ge rest (j + 1) q hq
    omega

theorem enumChain_get {α : Type} :
    ∀ (bs : List α) (j m : Nat),
      storeGet (enumChain j bs) m =
        if j ≤ m ∧ m < j + bs.length then bs.get? (m - j) else none
  | [], j, m => by
    simp [enumChain, storeGet]
  | b :: rest, j, m => by
    by_cases hm : m = j
    · subst hm
      simp [enumChain, storeGet, List.length_cons]
    · simp only [enumChain, storeGet, if_neg hm, enumChain_get rest (j + 1) m,
        List.length_cons]
      by_cases hle : j + 1 ≤ m ∧ m < j + 1 + rest.length
      · rw [if_pos hle, if_pos (by omega)]
        have : m - j = (m - (j + 1)) + 1 := by omega
        rw [this]
        simp
      · rw [if_neg hle, if_neg (by omega)]

theorem enumChain_map_snd {α : Type} :
    ∀ (bs : List α) (j : Nat), (enumChain j bs).map Prod.snd = bs
  | [], _ => rfl
  | b :: rest, j => by
    simp [enumChain, enumChain_map_snd rest (j + 1)]

theorem contig_get_none {α : Type} (st : Store α) (h : Contig st) (m : Nat)
    (hm : st.length ≤ m) : storeGet st m = none := by
  have := (h m).mpr
  rcases he : storeGet st m with _ | v
  · rfl
  · have hlt := (h m).mpr (by simp [he])
    omega

/-! ## Lemmas about the hasher -/

theorem hashPreimage_hash_irrel (b : Block) (h : String) :
    hashPreimage { b with hash := h } = hashPreimage b := rfl

theorem calculateBlockHash_hash_irrel (H : List Nat → String) (b : Block)
    (h : String) :
    calculateBlockHash H { b with hash := h } = calculateBlockHash H b := rfl

/-! ## The shape invariant of chains built by `genesis` + `push` -/

/-- The genesis block the engine constructs at time `now`. -/
def Blockchain.genesisBlock (H : List Nat → String) (gd : List Nat)
    (now : Nat) : Block :=
  { data := gd, index := 0, previousHash := Blockchain.zeros64, timestamp := now,
    hash := calculateBlockHash H
      { data := gd, hash := "", index := 0, previousHash := Blockchain.zeros64,
        timestamp := now } }

/-- The block `push` constructs on top of `last` at time `now`. -/
def Blockchain.pushedBlock (H : List Nat → String) (d : List Nat) (now : Nat)
    (last : Block) : Block :=
  { data := d, index := last.index + 1, previousHash := last.hash,
    timestamp := now,
    hash := calculateBlockHash H
      { data := d, hash := "", index := last.index + 1,
        previousHash := last.hash, timestamp := now } }

theorem genesis_eq_of_empty (H : List Nat → String) (gd : List Nat) (now : Nat)
    (s : Blockchain.State) (h : getLastBlock s.store = none) :
    Blockchain.genesis H gd now s =
      (some (Blockchain.genesisBlock H gd now),
        ⟨storePut s.store 0 (Blockchain.genesisBlock H gd now), s.isReplacing⟩) := by
  simp [Blockchain.genesis, Blockchain.genesisBlock, h]

theorem genesis_eq_of_last (H : List Nat → String) (gd : List Nat) (now : Nat)
    (s : Blockchain.State) (lb : Block) (h : getLastBlock s.store = some lb) :
    Blockchain.genesis H gd now s = (none, s) := by
  simp [Blockchain.genesis, h]

theorem push_eq_of_last (H : List Nat → String) (d : List Nat) (now : Nat)
    (s : Blockchain.State) (lb : Block) (h : getLastBlock s.store = some lb) :
    Blockchain.push H d now s =
      .ok (Blockchain.pushedBlock H d now lb,
        ⟨storePut s.store (Blockchain.pushedBlock H d now lb).index.toNat
          (Blockchain.pushedBlock H d now lb), s.isReplacing⟩) := by
  simp [Blockchain.push, Blockchain.pushedBlock, h]

/-- Shape invariant of engine-built chains: sorted contiguous keys, the
block at key `k` carries index `k`, and each block's `previousHash` is its
predecessor's `hash`. -/
def GoodChain (st : Store Block) : Prop :=
  StoreWF st ∧ 0 < st.length ∧ Contig st ∧
  (∀ k b, storeGet st k = some b → b.index = (k : Int)) ∧
  (∀ k b b', storeGet st k = some b → storeGet st (k + 1) = some b' →
    b'.previousHash = b.hash)

theorem goodChain_singleton (g : Block) (h : g.index = 0) :
    GoodChain [(0, g)] := by
  refine ⟨by simp [StoreWF], by simp, ?_, ?_, ?_⟩
  · intro k
    constructor
    · intro hk
      have : k = 0 := by simpa using hk
      subst this
      simp [storeGet]
    · intro hk
      by_cases h0 : k = 0
      · simp [h0]
      · simp [storeGet, h0] at hk
  · intro k b hb
    by_cases h0 : k = 0
    · subst h0
      simp only [storeGet, eq_self_iff_true, if_true, Option.some.injEq] at hb
      subst hb
      simp [h]
    · simp [storeGet, h0] at hb
  · intro k b b' hb hb'
    simp [storeGet] at hb'

theorem getLastBlock_of_goodChain (st : Store Block) (h : GoodChain st) :
    ∃ lb, getLastBlock st = some lb ∧ storeGet st (st.length - 1) = some lb ∧
      lb.index = ((st.length - 1 : Nat) : Int) := by
  obtain ⟨hwf, hpos, hcontig, hidx, hlink⟩ := h
  have hsome : (storeGet st (st.length - 1)).isSome :=
    (hcontig (st.length - 1)).mp (by omega)
  obtain ⟨lb, hlb⟩ := Option.isSome_iff_exists.mp hsome
  refine ⟨lb, ?_, hlb, hidx _ lb hlb⟩
  unfold getLastBlock
  rw [if_neg (by omega), hlb]

theorem push_preserves (H : List Nat → String) (d : List Nat) (now : Nat)
    (s : Blockchain.State) (hg : GoodChain s.store) :
    ∃ nb s', Blockchain.push H d now s = .ok (nb, s') ∧
      s'.store = storePut s.store s.store.length nb ∧
      s'.isReplacing = s.isReplacing ∧
      GoodChain s'.store ∧
      s'.store.length = s.store.length + 1 ∧
      storeGet s'.store s.store.length = some nb ∧
      nb.timestamp = now ∧ nb.data = d ∧
      nb.hash = calculateBlockHash H nb := by
  obtain ⟨lb, hlast, hlbget, hlbidx⟩ := getLastBlock_of_goodChain s.store hg
  obtain ⟨hwf, hpos, hcontig, hidx, hlink⟩ := hg
  set len := s.store.length with hlendef
  set nb := Blockchain.pushedBlock H d now lb with hnb
  have hnbidx : nb.index = ((len : Nat) : Int) := by
    simp only [hnb, Blockchain.pushedBlock, hlbidx]
    omega
  have hnbnat : nb.index.toNat = len := by
    rw [hnbidx]
    simp
  have hfresh : storeGet s.store len = none :=
    contig_get_none s.store hcontig len (by omega)
  have hput := push_eq_of_last H d now s lb hlast
  rw [hnbnat] at hput
  refine ⟨nb, _, hput, rfl, rfl, ?_, ?_, ?_, rfl, rfl, ?_⟩
  · -- GoodChain of the extended store
    refine ⟨storePut_WF _ _ _ hwf, ?_, ?_, ?_, ?_⟩
    · simp [storePut_length_of_fresh s.store len nb hfresh]
    · intro k
      rw [storePut_length_of_fresh s.store len nb hfresh, storeGet_storePut]
      by_cases hk : k = len
      · subst hk
        simp
      · rw [if_neg hk]
        have hc := hcontig k
        constructor
        · intro h'
          exact hc.mp (by omega)
        · intro h'
          have := hc.mpr h'
          omega
    · intro k b hb
      rw [storeGet_storePut] at hb
      by_cases hk : k = len
      · subst hk
        rw [if_pos rfl] at hb
        cases hb
        exact hnbidx
      · rw [if_neg hk] at hb
        exact hidx k b hb
    · intro k b b' hb hb'
      rw [storeGet_storePut] at hb hb'
      by_cases hk' : k + 1 = len
      · rw [if_pos hk'] at hb'
        cases hb'
        have hkne : ¬ k = len := by omega
        rw [if_neg hkne] at hb
        have : k = len - 1 := by omega
        subst this
        rw [hlbget] at hb
        cases hb
        rfl
      · rw [if_neg hk'] at hb'
        by_cases hk : k = len
        · subst hk
          have : storeGet s.store (len + 1) = none :=
            contig_get_none s.store hcontig (len + 1) (by omega)
          rw [this] at hb'
          cases hb'
        · rw [if_neg hk] at hb
          exact hlink k b b' hb hb'
  · simp [storePut_length_of_fresh s.store len nb hfresh]
  · rw [storeGet_storePut, if_pos rfl]
  · rfl

theorem pushSeq_good (H : List Nat → String) :
    ∀ (ps : List (List Nat × Nat)) (s : Blockchain.State), GoodChain s.store →
      ∃ s', Blockchain.pushSeq H s ps = some s' ∧ GoodChain s'.store ∧
        s'.store.length = s.store.length + ps.length
  | [], s, hg => ⟨s, rfl, hg, by simp [Blockchain.pushSeq]⟩
  | (d, t) :: rest, s, hg => by
    obtain ⟨nb, s1, hpush, _, _, hg1, hlen1, _⟩ := push_preserves H d t s hg
    obtain ⟨s', hseq, hg', hlen'⟩ := pushSeq_good H rest s1 hg1
    refine ⟨s', ?_, hg', ?_⟩
    · simp [Blockchain.pushSeq, hpush, hseq]
    · rw [hlen', hlen1]
      simp only [List.length_cons]
      omega

/-- C6 -- Genesis idempotence: on a fresh chain the first `genesis` call
returns a block with index 0 and the all-zero `previousHash` sentinel and
leaves exactly one stored block; every later `genesis` call (at any
timestamp) returns `null` and leaves the state, hence the stored genesis
block, unchanged. -/
theorem c6_genesis_idempotent (H : List Nat → String) (gd : List Nat) (t0 : Nat) :
    ∃ g s1, Blockchain.genesis H gd t0 Blockchain.initChain = (some g, s1) ∧
      g.index = 0 ∧ g.previousHash = Blockchain.zeros64 ∧
      s1.store.length = 1 ∧ storeGet s1.store 0 = some g ∧
      ∀ t1, Blockchain.genesis H gd t1 s1 = (none, s1) := by
  have h0 : getLastBlock (Blockchain.initChain).store = none := rfl
  rw [genesis_eq_of_empty H gd t0 Blockchain.initChain h0]
  refine ⟨Blockchain.genesisBlock H gd t0, _, rfl, rfl, rfl, rfl, rfl, ?_⟩
  intro t1
  exact genesis_eq_of_last H gd t1 _ (Blockchain.genesisBlock H gd t0) rfl

/-! ## Pointwise characterisation of `validate` on contiguous stores -/

/-- The stored predecessor used at loop index `i` (`at(i-1)`, `null` at 0). -/
def prevOf (st : Store Block) (i : Nat) : Option Block :=
  if i = 0 then none else storeGet st (i - 1)

/-- The check `validate` effectively performs at index `i` of a contiguous
store (`true` means the block passes). -/
def okAt (H : List Nat → String) (gd : List Nat) (st : Store Block)
    (i : Nat) : Bool :=
  ! Blockchain.performValidation H gd (storeGet st i) (prevOf st i) (prevOf st i)

theorem prevOf_fallback (st : Store Block) (i : Nat) :
    (prevOf st i).orElse (fun _ => if i = 0 then none else storeGet st (i - 1))
      = prevOf st i := by
  unfold prevOf
  by_cases h0 : i = 0
  · simp [h0]
  · rw [if_neg h0]
    rcases storeGet st (i - 1) with _ | pm <;> simp [h0]

theorem validateAux_step_ok (H : List Nat → String) (gd : List Nat)
    (st : Store Block) (k i : Nat) (c : Block) (hc : storeGet st i = some c)
    (h : okAt H gd st i = true) :
    Blockchain.validateAux H gd st (k + 1) i (prevOf st i) =
      Blockchain.validateAux H gd st k (i + 1) (some c) := by
  have hperf : Blockchain.performValidation H gd (storeGet st i)
      (prevOf st i) (prevOf st i) = false := by
    simpa [okAt] using h
  rw [Blockchain.validateAux]
  rw [prevOf_fallback, hc]
  rw [hc] at hperf
  have htail : ((some c).orElse fun _ => prevOf st i) = some c := rfl
  rw [htail, if_neg (by simp [hperf])]

theorem validateAux_step_bad (H : List Nat → String) (gd : List Nat)
    (st : Store Block) (k i : Nat) (h : okAt H gd st i = false) :
    Blockchain.validateAux H gd st (k + 1) i (prevOf st i) = false := by
  have hperf : Blockchain.performValidation H gd (storeGet st i)
      (prevOf st i) (prevOf st i) = true := by
    simpa [okAt] using h
  rw [Blockchain.validateAux]
  rw [prevOf_fallback, if_pos (by simp [hperf])]

theorem validateAux_iff (H : List Nat → String) (gd : List Nat)
    (st : Store Block) (hcontig : Contig st) :
    ∀ (k i : Nat), i + k = st.length →
      (Blockchain.validateAux H gd st k i (prevOf st i) = true ↔
        ∀ m, i ≤ m → m < st.length → okAt H gd st m = true)
  | 0, i, hik => by
    constructor
    · intro _ m hm1 hm2
      omega
    · intro _
      rfl
  | k + 1, i, hik => by
    have hi : i < st.length := by omega
    obtain ⟨c, hc⟩ := Option.isSome_iff_exists.mp ((hcontig i).mp hi)
    have hnext : prevOf st (i + 1) = some c := by
      unfold prevOf
      simp [hc]
    by_cases hok : okAt H gd st i = true
    · rw [validateAux_step_ok H gd st k i c hc hok, ← hnext]
      rw [validateAux_iff H gd st hcontig k (i + 1) (by omega)]
      constructor
      · intro hall m hm1 hm2
        by_cases hmi : m = i
        · subst hmi
          exact hok
        · exact hall m (by omega) hm2
      · intro hall m hm1 hm2
        exact hall m (by omega) hm2
    · have hbad : okAt H gd st i = false := by
        simpa using hok
      rw [validateAux_step_bad H gd st k i hbad]
      constructor
      · intro h'
        cases h'
      · intro hall
        exact absurd (hall i (by omega) hi) (by simp [hbad])

theorem validate_iff_all_ok (H : List Nat → String) (gd : List Nat)
    (s : Blockchain.State) (hcontig : Contig s.store) :
    Blockchain.validate H gd s 0 = true ↔
      ∀ m, m < s.store.length → okAt H gd s.store m = true := by
  have h := validateAux_iff H gd s.store hcontig s.store.length 0 (by omega)
  have hpz : prevOf s.store 0 = none := rfl
  rw [hpz] at h
  unfold Blockchain.validate
  rw [Nat.sub_zero]
  simpa using h

theorem validate_false_of_bad (H : List Nat → String) (gd : List Nat)
    (s : Blockchain.State) (hcontig : Contig s.store) (j : Nat)
    (hj : j < s.store.length) (hbad : okAt H gd s.store j = false) :
    Blockchain.validate H gd s 0 = false := by
  rcases hv : Blockchain.validate H gd s 0 with _ | _
  · rfl
  · exact absurd ((validate_iff_all_ok H gd s hcontig).mp hv j hj)
      (by simp [hbad])

/-! ## Case lemmas for `performValidation` -/

theorem pv_some (H : List Nat → String) (gd : List Nat) (c : Block)
    (p pm : Option Block) :
    Blockchain.performValidation H gd (some c) p pm =
      (if c.hash ≠ calculateBlockHash H c then true
       else if c.data = gd then false
       else
         match p with
         | none => true
         | some pb =>
           if c.previousHash ≠ pb.hash then true
           else
             match pm with
             | none => true
             | some pmb => decide (pmb.timestamp ≥ c.timestamp)) := rfl

theorem pv_hash_bad (H : List Nat → String) (gd : List Nat) (c : Block)
    (p pm : Option Block) (h : c.hash ≠ calculateBlockHash H c) :
    Blockchain.performValidation H gd (some c) p pm = true := by
  rw [pv_some, if_pos h]

theorem pv_genesis (H : List Nat → String) (gd : List Nat) (c : Block)
    (p pm : Option Block) (hh : c.hash = calculateBlockHash H c)
    (hd : c.data = gd) :
    Blockchain.performValidation H gd (some c) p pm = false := by
  rw [pv_some, if_neg (fun hne => hne hh), if_pos hd]

theorem pv_ok (H : List Nat → String) (gd : List Nat) (c pb : Block)
    (hh : c.hash = calculateBlockHash H c) (hd : c.data ≠ gd)
    (hl : c.previousHash = pb.hash) (ht : pb.timestamp < c.timestamp) :
    Blockchain.performValidation H gd (some c) (some pb) (some pb) = false := by
  have e : Blockchain.performValidation H gd (some c) (some pb) (some pb) =
      (if c.hash ≠ calculateBlockHash H c then true
       else if c.data = gd then false
       else if c.previousHash ≠ pb.hash then true
       else decide (pb.timestamp ≥ c.timestamp)) := rfl
  rw [e, if_neg (fun hne => hne hh), if_neg hd, if_neg (fun hne => hne hl)]
  simp only [decide_eq_false_iff_not]
  omega

theorem pv_no_prevMem (H : List Nat → String) (gd : List Nat) (c : Block)
    (p : Option Block) (hh : c.hash = calculateBlockHash H c)
    (hd : c.data ≠ gd) :
    Blockchain.performValidation H gd (some c) p none = true := by
  rw [pv_some, if_neg (fun hne => hne hh), if_neg hd]
  rcases p with _ | pb
  · rfl
  · by_cases hl : c.previousHash = pb.hash
    · have e : (match some pb with
          | none => true
          | some pb =>
            if c.previousHash ≠ pb.hash then true
            else
              match (none : Option Block) with
              | none => true
              | some pmb => decide (pmb.timestamp ≥ c.timestamp)) =
          (if c.previousHash ≠ pb.hash then true else true) := rfl
      rw [e, if_neg (fun hne => hne hl)]
    · have e : (match some pb with
          | none => true
          | some pb =>
            if c.previousHash ≠ pb.hash then true
            else
              match (none : Option Block) with
              | none => true
              | some pmb => decide (pmb.timestamp ≥ c.timestamp)) =
          (if c.previousHash ≠ pb.hash then true else true) := rfl
      rw [e, if_pos hl]

/-! ## Validity invariants preserved by `push` -/

/-- Every stored block's `hash` field is its recomputed digest. -/
def HashOK (H : List Nat → String) (st : Store Block) : Prop :=
  ∀ k b, storeGet st k = some b → b.hash = calculateBlockHash H b

/-- Stored timestamps strictly increase along consecutive keys. -/
def TsStrict (st : Store Block) : Prop :=
  ∀ k b b', storeGet st k = some b → storeGet st (k + 1) = some b' →
    b.timestamp < b'.timestamp

theorem push_preserves_valid (H : List Nat → String) (d : List Nat) (now : Nat)
    (s : Blockchain.State) (hg : GoodChain s.store) (hh : HashOK H s.store)
    (hts : TsStrict s.store) (lb : Block)
    (hlast : getLastBlock s.store = some lb) (hnow : lb.timestamp < now) :
    ∃ nb s', Blockchain.push H d now s = .ok (nb, s') ∧
      GoodChain s'.store ∧ HashOK H s'.store ∧ TsStrict s'.store ∧
      getLastBlock s'.store = some nb ∧ nb.timestamp = now ∧
      storeGet s'.store 0 = storeGet s.store 0 := by
  obtain ⟨nb, s', hpush, hstore, _, hg', hlen', hget', hnbts, _, hnbhash⟩ :=
    push_preserves H d now s hg
  obtain ⟨hwf, hpos, hcontig, hidx, hlink⟩ := hg
  have hlbget : storeGet s.store (s.store.length - 1) = some lb := by
    unfold getLastBlock at hlast
    rw [if_neg (by omega)] at hlast
    exact hlast
  refine ⟨nb, s', hpush, hg', ?_, ?_, ?_, hnbts, ?_⟩
  · intro k b hbk
    rw [hstore, storeGet_storePut] at hbk
    by_cases hk : k = s.store.length
    · rw [if_pos hk] at hbk
      cases hbk
      exact hnbhash
    · rw [if_neg hk] at hbk
      exact hh k b hbk
  · intro k b b' hbk hbk1
    rw [hstore, storeGet_storePut] at hbk hbk1
    by_cases hk1 : k + 1 = s.store.length
    · rw [if_pos hk1] at hbk1
      cases hbk1
      rw [if_neg (by omega)] at hbk
      have hk : k = s.store.length - 1 := by omega
      subst hk
      rw [hlbget] at hbk
      cases hbk
      omega
    · rw [if_neg hk1] at hbk1
      by_cases hk : k = s.store.length
      · subst hk
        rw [contig_get_none s.store hcontig (s.store.length + 1) (by omega)]
          at hbk1
        cases hbk1
      · rw [if_neg hk] at hbk
        exact hts k b b' hbk hbk1
  · unfold getLastBlock
    rw [if_neg (by omega)]
    have : s'.store.length - 1 = s.store.length := by omega
    rw [this]
    exact hget'
  · rw [hstore, storeGet_storePut, if_neg (by omega)]

theorem pushSeq_valid (H : List Nat → String) :
    ∀ (ps : List (List Nat × Nat)) (s : Blockchain.State) (lb : Block),
      GoodChain s.store → HashOK H s.store → TsStrict s.store →
      getLastBlock s.store = some lb →
      List.Chain (fun a b => a < b) lb.timestamp (ps.map Prod.snd) →
      ∃ s', Blockchain.pushSeq H s ps = some s' ∧ GoodChain s'.store ∧
        HashOK H s'.store ∧ TsStrict s'.store ∧
        storeGet s'.store 0 = storeGet s.store 0
  | [], s, lb, hg, hh, hts, _, _ => ⟨s, rfl, hg, hh, hts, rfl⟩
  | (d, t) :: rest, s, lb, hg, hh, hts, hlast, hchain => by
    rw [List.map_cons, List.chain_cons] at hchain
    obtain ⟨hlt, hchain'⟩ := hchain
    obtain ⟨nb, s1, hpush, hg1, hh1, hts1, hlast1, hnbts, hzero⟩ :=
      push_preserves_valid H d t s hg hh hts lb hlast hlt
    obtain ⟨s', hseq, hg', hh', hts', hzero'⟩ :=
      pushSeq_valid H rest s1 nb hg1 hh1 hts1 hlast1 (by rw [hnbts]; exact hchain')
    refine ⟨s', ?_, hg', hh', hts', by rw [hzero', hzero]⟩
    simp [Blockchain.pushSeq, hpush, hseq]

/-! ## Contiguity of small literal stores -/

theorem contig_singleton {α : Type} (a : α) : Contig [(0, a)] := by
  intro k
  by_cases h0 : k = 0
  · subst h0
    simp [storeGet]
  · simp [storeGet, h0]

theorem contig_pair {α : Type} (a b : α) : Contig [(0, a), (1, b)] := by
  intro k
  by_cases h0 : k = 0
  · subst h0
    simp [storeGet]
  · by_cases h1 : k = 1
    · subst h1
      simp [storeGet]
    · simp [storeGet, h0, h1]
      omega

/-- Overwriting one stored block with a block whose stored hash differs
from its recomputed digest makes `validate` return `false`. -/
theorem validate_false_of_corrupt (H : List Nat → String) (gd : List Nat)
    (st : Store Block) (j : Nat) (b b' : Block) (hwf : StoreWF st)
    (hcontig : Contig st) (hb : storeGet st j = some b)
    (hbad : b'.hash ≠ calculateBlockHash H b') :
    Blockchain.validate H gd ⟨storePut st j b', false⟩ 0 = false := by
  have hjlt : j < st.length := (hcontig j).mpr (by simp [hb])
  have hlen : (storePut st j b').length = st.length :=
    storePut_length_of_present st j b' hwf (by simp [hb])
  have hcontig' : Contig (storePut st j b') := by
    intro k
    rw [hlen, storeGet_storePut]
    by_cases hk : k = j
    · subst hk
      simp
      omega
    · rw [if_neg hk]
      exact hcontig k
  apply validate_false_of_bad H gd ⟨storePut st j b', false⟩ hcontig' j
    (by rw [hlen]; exact hjlt)
  unfold okAt
  have hcur : storeGet (storePut st j b') j = some b' := by
    rw [storeGet_storePut, if_pos rfl]
  rw [hcur, pv_hash_bad H gd b' _ _ hbad]
  rfl

/-- On a chain produced by `genesis` followed by appends whose timestamps
strictly increase (starting strictly after the genesis timestamp), the
per-index checks all pass and `validate` accepts. -/
theorem runChain_validate_true (H : List Nat → String) (gd : List Nat)
    (t0 : Nat) (ps : List (List Nat × Nat)) (s : Blockchain.State)
    (hchain : List.Chain (fun a b => a < b) t0 (ps.map Prod.snd))
    (hrun : Blockchain.runChain H gd t0 ps = some s) :
    Blockchain.validate H gd s 0 = true := by
  have hg1 : GoodChain [(0, Blockchain.genesisBlock H gd t0)] :=
    goodChain_singleton _ rfl
  have hh1 : HashOK H [(0, Blockchain.genesisBlock H gd t0)] := by
    intro k b hb
    by_cases hk : k = 0
    · subst hk
      simp only [storeGet, eq_self_iff_true, if_true, Option.some.injEq] at hb
      subst hb
      rfl
    · simp [storeGet, hk] at hb
  have hts1 : TsStrict [(0, Blockchain.genesisBlock H gd t0)] := by
    intro k b b' hb hb'
    simp [storeGet] at hb'
  have hlast1 : getLastBlock [(0, Blockchain.genesisBlock H gd t0)] =
      some (Blockchain.genesisBlock H gd t0) := rfl
  obtain ⟨s', hseq, hg', hh', hts', hzero⟩ :=
    pushSeq_valid H ps ⟨[(0, Blockchain.genesisBlock H gd t0)], false⟩
      (Blockchain.genesisBlock H gd t0) hg1 hh1 hts1 hlast1 hchain
  unfold Blockchain.runChain at hrun
  have hstate : (Blockchain.genesis H gd t0 Blockchain.initChain).2 =
      ⟨[(0, Blockchain.genesisBlock H gd t0)], false⟩ := by
    rw [genesis_eq_of_empty H gd t0 Blockchain.initChain rfl]
    rfl
  rw [hstate, hseq] at hrun
  cases hrun
  obtain ⟨hwf', hpos', hcontig', hidx', hlink'⟩ := hg'
  apply (validate_iff_all_ok H gd _ hcontig').mpr
  intro m hm
  obtain ⟨b, hbm⟩ := Option.isSome_iff_exists.mp ((hcontig' m).mp hm)
  unfold okAt
  by_cases hm0 : m = 0
  · subst hm0
    have hzg : storeGet s.store 0 = some (Blockchain.genesisBlock H gd t0) := by
      rw [hzero]
      rfl
    rw [hzg, pv_genesis H gd _ _ _ rfl rfl]
    rfl
  · have hm1 : (storeGet s.store (m - 1)).isSome :=
      (hcontig' (m - 1)).mp (by omega)
    obtain ⟨pb, hpb⟩ := Option.isSome_iff_exists.mp hm1
    have hprev : prevOf s.store m = some pb := by
      unfold prevOf
      rw [if_neg hm0, hpb]
    rw [hbm, hprev]
    by_cases hd : b.data = gd
    · rw [pv_genesis H gd b _ _ (hh' m b hbm) hd]
      rfl
    · have hsucc : m - 1 + 1 = m := by omega
      have hlk : b.previousHash = pb.hash :=
        hlink' (m - 1) pb b hpb (by rwa [hsucc])
      have htsb : pb.timestamp < b.timestamp :=
        hts' (m - 1) pb b hpb (by rwa [hsucc])
      rw [pv_ok H gd b pb (hh' m b hbm) hd hlk htsb]
      rfl

/-! ## C9 and C10 -/

/-- A block stored at key 1 whose payload equals the genesis sentinel, with
an arbitrary `previousHash` `p` and a correct self-hash. -/
def c9Rogue (H : List Nat → String) (gd : List Nat) (p : String)
    (t1 : Nat) : Block :=
  { data := gd, index := 1, previousHash := p, timestamp := t1,
    hash := calculateBlockHash H
      { data := gd, index := 1, previousHash := p, timestamp := t1,
        hash := "" } }

/-- C9 -- Genesis status during validation is decided by payload shape,
not by index: in a two-block chain whose second block is correctly
self-hashed, carries the genesis payload `gd`, and has an arbitrary
`previousHash` `p` different from the genesis block's hash, `validate`
still returns `true` despite the broken hash link. -/
theorem c9_genesis_by_payload_shape (H : List Nat → String) (gd : List Nat)
    (p : String) (t0 t1 : Nat)
    (hp : p ≠ (Blockchain.genesisBlock H gd t0).hash) :
    Blockchain.validate H gd
      ⟨[(0, Blockchain.genesisBlock H gd t0), (1, c9Rogue H gd p t1)],
        false⟩ 0 = true ∧
    (c9Rogue H gd p t1).previousHash ≠ (Blockchain.genesisBlock H gd t0).hash ∧
    (c9Rogue H gd p t1).index = 1 ∧
    (c9Rogue H gd p t1).hash = calculateBlockHash H (c9Rogue H gd p t1) ∧
    (c9Rogue H gd p t1).data = gd := by
  refine ⟨?_, hp, rfl, rfl, rfl⟩
  apply (validate_iff_all_ok H gd _ (contig_pair _ _)).mpr
  intro m hm
  unfold okAt
  by_cases hm0 : m = 0
  · subst hm0
    have hc : storeGet
        [(0, Blockchain.genesisBlock H gd t0), (1, c9Rogue H gd p t1)] 0
        = some (Blockchain.genesisBlock H gd t0) := rfl
    rw [hc, pv_genesis H gd _ _ _ rfl rfl]
    rfl
  · have hm1 : m = 1 := by
      simp only [List.length_cons, List.length_nil] at hm
      omega
    subst hm1
    have hc : storeGet
        [(0, Blockchain.genesisBlock H gd t0), (1, c9Rogue H gd p t1)] 1
        = some (c9Rogue H gd p t1) := rfl
    rw [hc, pv_genesis H gd _ _ _ rfl rfl]
    rfl

/-- Witness for C9 at concrete inputs. -/
theorem c9_genesis_by_payload_shape_witness :
    Blockchain.validate hexEncode [7]
      ⟨[(0, Blockchain.genesisBlock hexEncode [7] 0),
        (1, c9Rogue hexEncode [7] "00" 1)], false⟩ 0 = true ∧
    (c9Rogue hexEncode [7] "00" 1).previousHash
      ≠ (Blockchain.genesisBlock hexEncode [7] 0).hash ∧
    (c9Rogue hexEncode [7] "00" 1).index = 1 ∧
    (c9Rogue hexEncode [7] "00" 1).hash
      = calculateBlockHash hexEncode (c9Rogue hexEncode [7] "00" 1) ∧
    (c9Rogue hexEncode [7] "00" 1).data = [7] :=
  c9_genesis_by_payload_shape hexEncode [7] "00" 0 1 (by decide)

/-- C10 -- `validate(fromIndex)` with `fromIndex ≥ 1` returns `false`
whenever the block stored at `fromIndex` exists, its recomputed hash
matches, and its payload is not genesis-shaped, regardless of the chain's
actual integrity: on the first iteration the carried last-known-good
pointer is still empty and the timestamp check rejects every non-genesis
block. -/
theorem c10_validate_from_positive_index (H : List Nat → String)
    (gd : List Nat) (s : Blockchain.State) (f : Nat) (b : Block)
    (hcontig : Contig s.store) (hf : 1 ≤ f)
    (hb : storeGet s.store f = some b)
    (hhash : b.hash = calculateBlockHash H b) (hdata : b.data ≠ gd) :
    Blockchain.validate H gd s f = false := by
  have hflt : f < s.store.length := (hcontig f).mpr (by simp [hb])
  unfold Blockchain.validate
  have hk : s.store.length - f = (s.store.length - f - 1) + 1 := by omega
  rw [hk, Blockchain.validateAux]
  have hpred : ((none : Option Block).orElse
      (fun _ => if f = 0 then none else storeGet s.store (f - 1)))
      = storeGet s.store (f - 1) := by
    show (if f = 0 then none else storeGet s.store (f - 1))
      = storeGet s.store (f - 1)
    rw [if_neg (by omega)]
  rw [hpred, hb]
  rcases hpb : storeGet s.store (f - 1) with _ | pb
  · have hsm := (hcontig (f - 1)).mp (by omega)
    rw [hpb] at hsm
    simp at hsm
  · rw [if_pos (by rw [pv_no_prevMem H gd b (some pb) hhash hdata])]

/-! ## C5: codec round trip -/

/-- The codec round-trip domain: index readable back unchanged by the
signed `readInt32BE`, 64-bit timestamp and data length, and digests that
`toString('hex')` reproduces verbatim (64 lowercase hex characters). -/
def InDomain (b : Block) : Prop :=
  0 ≤ b.index ∧ b.index < 2147483648 ∧ b.timestamp < 18446744073709551616
    ∧ b.data.length < 18446744073709551616
    ∧ LowerHex64 b.hash ∧ LowerHex64 b.previousHash

instance : DecidablePred InDomain := fun b => by
  unfold InDomain; infer_instance

/-- Decoding an encoded block recovers every field except that the index
comes back through the signed 32-bit read: values of `2^31` and above wrap
to negative. -/
theorem decode_encode_general (b : Block) (h0 : 0 ≤ b.index)
    (h1 : b.index < 4294967296) (h2 : b.timestamp < 18446744073709551616)
    (h3 : b.data.length < 18446744073709551616)
    (h4 : LowerHex64 b.hash) (h5 : LowerHex64 b.previousHash) :
    ∃ bytes, encodeBlock b = some bytes ∧ decodeBlock bytes = some
      { b with index :=
          if b.index < 2147483648 then b.index else b.index - 4294967296 } := by
  obtain ⟨bi, bt, bh, bp, bd⟩ := b
  dsimp only at h0 h1 h2 h3 h4 h5 ⊢
  set A := uint2b bi.toNat with hAdef
  set B := uint642b bt with hBdef
  set C := hexDecode bh with hCdef
  set D := hexDecode bp with hDdef
  set E := uint642b bd.length with hEdef
  have hA : A.length = 4 := rfl
  have hB : B.length = 8 := rfl
  have hC : C.length = 32 := hexDecode_length_of_lowerHex64 _ h4
  have hD : D.length = 32 := hexDecode_length_of_lowerHex64 _ h5
  have hE : E.length = 8 := rfl
  refine ⟨A ++ B ++ C ++ D ++ E ++ bd, ?_, ?_⟩
  · have hcond : (0 : Int) ≤ bi ∧ bi < 4294967296
        ∧ bt < 18446744073709551616
        ∧ bd.length < 18446744073709551616 := ⟨h0, by omega, h2, h3⟩
    rw [encodeBlock, if_pos hcond]
  · have hlen : (A ++ B ++ C ++ D ++ E ++ bd).length = 84 + bd.length := by
      simp only [List.length_append, hA, hB, hC, hD, hE]
    have e1 : (A ++ B ++ C ++ D ++ E ++ bd).take 4 = A := by
      simp only [List.append_assoc]
      exact List.take_left' hA
    have e2 : ((A ++ B ++ C ++ D ++ E ++ bd).drop 4).take 8 = B := by
      simp only [List.append_assoc]
      rw [List.drop_left' hA]
      exact List.take_left' hB
    have e3 : ((A ++ B ++ C ++ D ++ E ++ bd).drop 12).take 32 = C := by
      have hsplit : A ++ B ++ C ++ D ++ E ++ bd
          = (A ++ B) ++ (C ++ (D ++ (E ++ bd))) := by
        simp [List.append_assoc]
      rw [hsplit, List.drop_left' (by simp [hA, hB]),
        List.take_left' hC]
    have e4 : ((A ++ B ++ C ++ D ++ E ++ bd).drop 44).take 32 = D := by
      have hsplit : A ++ B ++ C ++ D ++ E ++ bd
          = ((A ++ B) ++ C) ++ (D ++ (E ++ bd)) := by
        simp [List.append_assoc]
      rw [hsplit, List.drop_left' (by simp [hA, hB, hC]),
        List.take_left' hD]
    have e5 : ((A ++ B ++ C ++ D ++ E ++ bd).drop 76).take 8 = E := by
      have hsplit : A ++ B ++ C ++ D ++ E ++ bd
          = (((A ++ B) ++ C) ++ D) ++ (E ++ bd) := by
        simp [List.append_assoc]
      rw [hsplit, List.drop_left' (by simp [hA, hB, hC, hD]),
        List.take_left' hE]
    have e6 : (A ++ B ++ C ++ D ++ E ++ bd).drop 84 = bd := by
      have hsplit : A ++ B ++ C ++ D ++ E ++ bd
          = ((((A ++ B) ++ C) ++ D) ++ E) ++ bd := by
        simp [List.append_assoc]
      rw [hsplit, List.drop_left' (by simp [hA, hB, hC, hD, hE])]
    rw [decodeBlock, if_neg (by omega)]
    rw [e1, e2, e3, e4, e5, e6]
    have hidx : int32ofBE A
        = (if bi < 2147483648 then bi else bi - 4294967296) := by
      rw [hAdef]
      simp only [int32ofBE, readBE_uint2b bi.toNat (by omega)]
      by_cases hlt : bi < 2147483648
      · rw [if_pos (by omega), if_pos hlt]
        omega
      · rw [if_neg (by omega), if_neg hlt]
        omega
    have hts : readBE B = bt := readBE_uint642b bt h2
    have hhash : hexEncode C = bh := hexEncode_hexDecode _ h4
    have hprev : hexEncode D = bp := hexEncode_hexDecode _ h5
    have hdl : readBE E = bd.length := readBE_uint642b bd.length h3
    rw [hidx, hts, hhash, hprev, hdl, List.take_length]

/-- Inside the round-trip domain, decoding inverts encoding exactly. -/
theorem encode_decode_exact (b : Block) (h : InDomain b) :
    ∃ bytes, encodeBlock b = some bytes ∧ decodeBlock bytes = some b := by
  obtain ⟨h0, h1, h2, h3, h4, h5⟩ := h
  obtain ⟨bytes, he, hd⟩ := decode_encode_general b h0 (by omega) h2 h3 h4 h5
  refine ⟨bytes, he, ?_⟩
  rw [hd, if_pos h1]

/-- C5 (amended) -- Codec round trip: for every block whose index fits a
*signed* 32-bit integer (the decoder reads the index back with
`readInt32BE`), whose timestamp and data length fit 64 bits, and whose
`hash`/`previousHash` are 64-character *lowercase* hex strings (the decoder
re-renders digests in lowercase), `decodeBlock (encodeBlock b) = b`.  The
original claim, which allowed any 32-bit non-negative index and any
64-hex-character digest strings, is refuted by `c5_roundtrip_cex`. -/
theorem c5_roundtrip_amended (b : Block) (h0 : 0 ≤ b.index)
    (h1 : b.index < 2147483648) (h2 : b.timestamp < 18446744073709551616)
    (h3 : b.data.length < 18446744073709551616)
    (h4 : LowerHex64 b.hash) (h5 : LowerHex64 b.previousHash) :
    ∃ bytes, encodeBlock b = some bytes ∧ decodeBlock bytes = some b :=
  encode_decode_exact b ⟨h0, h1, h2, h3, h4, h5⟩

/-- The block refuting C5 as stated: an unsigned 32-bit index of `2^31`
and an uppercase-hex digest string. -/
def c5Block : Block :=
  { index := 2147483648, timestamp := 0,
    hash := ⟨List.replicate 64 'A'⟩,
    previousHash := ⟨List.replicate 64 '0'⟩, data := [] }

/-- Counterexample to C5 as stated: `c5Block` is a valid block per the
claim (32-bit non-negative index, 64-hex-digit digests), yet decoding its
encoding flips the index sign to `-2^31` (signed read-back) and lowercases
the digest, so the round trip fails. -/
theorem c5_roundtrip_cex :
    ((encodeBlock c5Block).bind decodeBlock).map Block.index
      = some (-2147483648) ∧
    (encodeBlock c5Block).bind decodeBlock ≠ some c5Block := by
  constructor <;> decide

/-- Witness for C5 (amended) at a concrete block. -/
theorem c5_roundtrip_amended_witness :
    ∃ bytes,
      encodeBlock
        { index := 5, timestamp := 77,
          hash := ⟨List.replicate 64 'a'⟩,
          previousHash := ⟨List.replicate 64 '0'⟩, data := [1, 2, 3] }
        = some bytes ∧
      decodeBlock bytes = some
        { index := 5, timestamp := 77,
          hash := ⟨List.replicate 64 'a'⟩,
          previousHash := ⟨List.replicate 64 '0'⟩, data := [1, 2, 3] } :=
  c5_roundtrip_amended _ (by decide) (by decide) (by decide) (by decide)
    (by decide) (by decide)

/-! ## C7, C8 and C1 -/

/-- C7 -- The block digest is computed over the canonical concatenation of
exactly the four fields `index` (fixed-width), `timestamp` (fixed-width),
`previousHash` (decoded to raw bytes) and `data`; the block's own `hash`
field is never part of the preimage, and the digest is a deterministic
function of those four fields. -/
theorem c7_hash_preimage (H : List Nat → String) (b b' : Block) (h : String) :
    calculateBlockHash H { b with hash := h } = calculateBlockHash H b ∧
    (b.index = b'.index → b.timestamp = b'.timestamp →
      b.previousHash = b'.previousHash → b.data = b'.data →
      calculateBlockHash H b = calculateBlockHash H b') ∧
    hashPreimage b = uint2b b.index.toNat ++ uint642b b.timestamp
      ++ hexDecode b.previousHash ++ b.data := by
  refine ⟨rfl, ?_, rfl⟩
  intro h1 h2 h3 h4
  unfold calculateBlockHash hashPreimage
  rw [h1, h2, h3, h4]

/-- Witness for C7 at concrete blocks. -/
theorem c7_hash_preimage_witness :
    calculateBlockHash hexEncode
        { index := 1, timestamp := 2, hash := "ff", previousHash := "00",
          data := [3] }
      = calculateBlockHash hexEncode
        { index := 1, timestamp := 2, hash := "", previousHash := "00",
          data := [3] } ∧
    calculateBlockHash hexEncode
        { index := 1, timestamp := 2, hash := "", previousHash := "00",
          data := [3] }
      = calculateBlockHash hexEncode
        { index := 1, timestamp := 2, hash := "aa", previousHash := "00",
          data := [3] } := by
  obtain ⟨w1, w2, _⟩ := c7_hash_preimage hexEncode
    { index := 1, timestamp := 2, hash := "", previousHash := "00",
      data := [3] }
    { index := 1, timestamp := 2, hash := "aa", previousHash := "00",
      data := [3] } "ff"
  exact ⟨w1, w2 rfl rfl rfl rfl⟩

/-- C8 (amended) -- Decoder bounds: a buffer shorter than the fixed
84-byte header fails deterministically (the first read throws).  A buffer
with at least the header, however, always decodes to a block even when the
declared 8-byte data length exceeds the bytes remaining after the header:
`slice` clamps, so the block's `data` is truncated to the available bytes
(no out-of-bounds read, but no error either).  The original claim, which
promised a decode failure in the over-declared-length case, is refuted by
`c8_truncation_cex`. -/
theorem c8_decode_bounds_amended :
    (∀ buf : List Nat, buf.length < 84 → decodeBlock buf = none) ∧
    (∀ buf : List Nat, 84 ≤ buf.length →
      ∃ blk, decodeBlock buf = some blk ∧
        blk.data = (buf.drop 84).take (readBE ((buf.drop 76).take 8)) ∧
        blk.data.length ≤ buf.length - 84) := by
  constructor
  · intro buf h
    rw [decodeBlock, if_pos h]
  · intro buf h
    refine ⟨_, by rw [decodeBlock, if_neg (by omega)], rfl, ?_⟩
    simp only [List.length_take, List.length_drop]
    omega

/-- The buffer refuting C8 as stated: exactly 84 bytes with a declared
data length of 5 and zero remaining bytes. -/
def c8Buf : List Nat := List.replicate 76 0 ++ [0, 0, 0, 0, 0, 0, 0, 5]

/-- Counterexample to C8 as stated: `c8Buf` declares 5 data bytes with 0
remaining, yet `decodeBlock` returns a block (with truncated empty data)
instead of failing. -/
theorem c8_truncation_cex :
    (decodeBlock c8Buf).isSome = true ∧
    (decodeBlock c8Buf).map Block.data = some [] ∧
    readBE ((c8Buf.drop 76).take 8) = 5 ∧ c8Buf.length = 84 := by
  refine ⟨?_, ?_, ?_, ?_⟩ <;> decide

/-- Witness for C8 (amended) at concrete buffers. -/
theorem c8_decode_bounds_amended_witness :
    decodeBlock [0] = none ∧
    ∃ blk, decodeBlock (List.replicate 84 0) = some blk ∧
      blk.data = ((List.replicate 84 0).drop 84).take
        (readBE (((List.replicate 84 0).drop 76).take 8)) ∧
      blk.data.length ≤ (List.replicate 84 0).length - 84 :=
  ⟨c8_decode_bounds_amended.1 [0] (by decide),
    c8_decode_bounds_amended.2 (List.replicate 84 0) (by decide)⟩

/-- C1 -- Lock discipline of the JSON variant at the failing input: on a
fresh chain, `createGenesisBlock` succeeds and releases the lock, but a
subsequent successful `addBlock` resolves with the lock still held (the
operation contains no `release()` call), a second `createGenesisBlock`
returns `null` with the lock still held (the idempotent no-op path
returns before releasing), and `replaceBlockchain` with a too-short
candidate list throws with the lock still held.  Each outcome contradicts
the specified rule that every exit path releases the Write Lock. -/
theorem c1_lock_leak (HJ : BlockchainJ.HashFn) (t0 t1 t2 : Nat) (d : String) :
    ∃ g s1, BlockchainJ.createGenesisBlock HJ t0 BlockchainJ.initChain
        = some (some g, s1) ∧ s1.locked = false ∧
      (∃ nb s2, BlockchainJ.addBlock HJ d t1 s1 = some (nb, s2) ∧
        s2.locked = true) ∧
      (∃ s3, BlockchainJ.createGenesisBlock HJ t2 s1 = some (none, s3) ∧
        s3.locked = true) ∧
      (∃ s4, BlockchainJ.replaceBlockchain HJ [] s1
        = some (.error .tooShort, s4) ∧ s4.locked = true) := by
  exact ⟨_, _, rfl, rfl, ⟨_, _, rfl, rfl⟩, ⟨_, rfl, rfl⟩, ⟨_, rfl, rfl⟩⟩

/-- Witness for C10 at a concrete two-block chain whose integrity is
intact, validated from index 1. -/
theorem c10_validate_from_positive_index_witness :
    Blockchain.validate hexEncode [7]
      ⟨[(0, Blockchain.genesisBlock hexEncode [7] 0),
        (1, Blockchain.pushedBlock hexEncode [9] 5
          (Blockchain.genesisBlock hexEncode [7] 0))], false⟩ 1 = false :=
  c10_validate_from_positive_index hexEncode [7]
    ⟨[(0, Blockchain.genesisBlock hexEncode [7] 0),
      (1, Blockchain.pushedBlock hexEncode [9] 5
        (Blockchain.genesisBlock hexEncode [7] 0))], false⟩ 1
    (Blockchain.pushedBlock hexEncode [9] 5
      (Blockchain.genesisBlock hexEncode [7] 0))
    (contig_pair _ _) (by omega) rfl rfl (by decide)

/-! ## Byte-faithful engine model

The binary variant persists `encodeBlock` bytes and re-decodes on every
read (`getLastBlock`, `at`, `toArray`, `validate`), and every hash or
encode of an out-of-range number throws a `RangeError` that rejects the
operation.  The model below stores raw bytes and threads those effects;
the decoded-`Block` model above coincides with it exactly on stores whose
blocks lie in the codec round-trip domain (`InDomain`). -/

/-- Bytes stored for a block (callers establish `encodeBlock` succeeds). -/
def encBytes (b : Block) : List Nat := (encodeBlock b).getD []

/-- Byte image of a decoded store. -/
def encStore (st : Store Block) : Store (List Nat) :=
  st.map (fun p => (p.1, encBytes p.2))

/-- Every stored block lies in the codec round-trip domain. -/
def StoreInDomain (st : Store Block) : Prop :=
  ∀ k b, storeGet st k = some b → InDomain b

/-- The digest function renders 64 lowercase hex characters, as
`createHash('sha256').digest('hex')` does. -/
def HGood (H : List Nat → String) : Prop := ∀ bs, LowerHex64 (H bs)

/-- The database key `uint2b(index)`: `none` models the `RangeError` of
`writeUInt32BE` on an out-of-range index. -/
def encKey (i : Int) : Option Nat :=
  if 0 ≤ i ∧ i < 4294967296 then some i.toNat else none

/-- `calculateBlockHash` with its throwing writes: `uint2b(index)` and
`uint642b(timestamp)` throw outside their ranges, rejecting the caller. -/
def calculateBlockHashE (H : List Nat → String) (b : Block) : Option String :=
  if 0 ≤ b.index ∧ b.index < 4294967296
      ∧ b.timestamp < 18446744073709551616 then
    some (calculateBlockHash H b)
  else none

namespace Blockchain

/-- The `at(index)` operation on the byte store: point get, then
`decodeBlock` (a decode of a too-short stored buffer would crash the
callback; engine-written buffers are always at least 84 bytes). -/
def atEnc (stB : Store (List Nat)) (i : Nat) : Option Block :=
  (storeGet stB i).bind decodeBlock

/-- `getLastBlock()` on the byte store; a missing key `length-1` rejects
in the source (unreachable on the contiguous stores the engine builds). -/
def getLastBlockEnc (stB : Store (List Nat)) : Option Block :=
  if stB.length = 0 then none else atEnc stB (stB.length - 1)

/-- The `push` operation on the byte store: reads the decoded last block,
builds the new block, hashes it (which can throw), and persists its
encoding (which can throw) under `uint2b(index)`. -/
def pushEnc (H : List Nat → String) (d : List Nat) (now : Nat)
    (stB : Store (List Nat)) : Except ChainError (Block × Store (List Nat)) :=
  match getLastBlockEnc stB with
  | none => .error .noGenesis
  | some last =>
    let nb0 : Block :=
      { data := d, hash := "", previousHash := last.hash,
        index := last.index + 1, timestamp := now }
    match calculateBlockHashE H nb0 with
    | none => .error .rangeError
    | some h =>
      let nb : Block := { nb0 with hash := h }
      match encKey nb.index, encodeBlock nb with
      | some k, some bytes => .ok (nb, storePut stB k bytes)
      | _, _ => .error .rangeError

/-- The `genesis` operation on the byte store. -/
def genesisEnc (H : List Nat → String) (gd : List Nat) (now : Nat)
    (stB : Store (List Nat)) :
    Except ChainError (Option Block × Store (List Nat)) :=
  match getLastBlockEnc stB with
  | some _ => .ok (none, stB)
  | none =>
    let g0 : Block :=
      { data := gd, hash := "", index := 0, previousHash := zeros64,
        timestamp := now }
    match calculateBlockHashE H g0 with
    | none => .error .rangeError
    | some h =>
      let g : Block := { g0 with hash := h }
      match encodeBlock g with
      | some bytes => .ok (some g, storePut stB 0 bytes)
      | none => .error .rangeError

/-- Sequential driver on the byte store; `none` if some append rejects. -/
def pushSeqEnc (H : List Nat → String) :
    Store (List Nat) → List (List Nat × Nat) → Option (Store (List Nat))
  | stB, [] => some stB
  | stB, (d, t) :: rest =>
    match pushEnc H d t stB with
    | .ok (_, stB') => pushSeqEnc H stB' rest
    | .error _ => none

/-- A fresh chain after `genesis` at `t0` followed by the given appends,
on the byte store. -/
def runChainEnc (H : List Nat → String) (gd : List Nat) (t0 : Nat)
    (ps : List (List Nat × Nat)) : Option (Store (List Nat)) :=
  match genesisEnc H gd t0 [] with
  | .ok (_, stB) => pushSeqEnc H stB ps
  | .error _ => none

/-- `toArray(fromIndex)` on the byte store: each streamed value is decoded. -/
def toArrayEnc (stB : Store (List Nat)) (fromIndex : Nat) :
    List (Option Block) :=
  (stB.filter (fun p => fromIndex ≤ p.1)).map (fun p => decodeBlock p.2)

/-- `performValidation` with the throwing hash recomputation: `none` means
the awaited `calculateBlockHash` threw and the validation pass rejected. -/
def performValidationE (H : List Nat → String) (gd : List Nat)
    (currentBlock previousBlock prevMemBlock : Option Block) : Option Bool :=
  match currentBlock with
  | none => some true
  | some c =>
    match calculateBlockHashE H c with
    | none => none
    | some hc =>
      if c.hash ≠ hc then some true
      else if c.data = gd then some false
      else
        match previousBlock with
        | none => some true
        | some p =>
          if c.previousHash ≠ p.hash then some true
          else
            match prevMemBlock with
            | none => some true
            | some pm => some (decide (pm.timestamp ≥ c.timestamp))

/-- Loop body of `validate` on the byte store, threading the throw. -/
def validateAuxE (H : List Nat → String) (gd : List Nat)
    (stB : Store (List Nat)) : Nat → Nat → Option Block → Option Bool
  | 0, _, _ => some true
  | k + 1, i, prevMem =>
    let currentBlock := atEnc stB i
    let previousBlock :=
      prevMem.orElse (fun _ => if i = 0 then none else atEnc stB (i - 1))
    match performValidationE H gd currentBlock previousBlock prevMem with
    | none => none
    | some true => some false
    | some false =>
      validateAuxE H gd stB k (i + 1) (currentBlock.orElse (fun _ => prevMem))

/-- The `validate(fromIndex)` operation on the byte store. -/
def validateEnc (H : List Nat → String) (gd : List Nat)
    (stB : Store (List Nat)) (fromIndex : Nat) : Option Bool :=
  validateAuxE H gd stB (stB.length - fromIndex) fromIndex none

/-- Loop of `validateReplacingBlocks` over the candidate `Block` objects
(the candidates are not decoded from the store), with the throwing hash. -/
def validateReplacingAuxE (H : List Nat → String) (gd : List Nat) :
    Option Block → List Block → Option Bool
  | _, [] => some true
  | prevMem, b :: rest =>
    match performValidationE H gd (some b) prevMem prevMem with
    | none => none
    | some true => some false
    | some false => validateReplacingAuxE H gd (some b) rest

/-- Whole-list candidate validation used by `replace`. -/
def validateReplacingBlocksE (H : List Nat → String) (gd : List Nat)
    (blocks : List Block) : Option Bool :=
  validateReplacingAuxE H gd none blocks

/-- Write loop of `replace` on the byte store: each iteration re-validates
the whole candidate list (whose outcome never changes, so a throw or an
invalid verdict strikes before the first write) and persists one
candidate's encoding under `uint2b(index)`. -/
def replaceLoopE (H : List Nat → String) (gd : List Nat)
    (blocks : List Block) (st : Store (List Nat)) :
    List Block → Option ChainError × Store (List Nat)
  | [] => (none, st)
  | b :: rest =>
    match validateReplacingBlocksE H gd blocks with
    | none => (some .rangeError, st)
    | some false => (some .invalidChain, st)
    | some true =>
      match encKey b.index, encodeBlock b with
      | some k, some bytes => replaceLoopE H gd blocks (storePut st k bytes) rest
      | _, _ => (some .rangeError, st)

/-- Instance state of the byte model for `replace`. -/
structure EncState where
  store : Store (List Nat)
  isReplacing : Bool
deriving DecidableEq

/-- The `replace(blocks)` operation on the byte store: rejects a strictly
shorter candidate list, sets `isReplacing`, runs the write loop, and
clears the flag only on success (as the source does). -/
def replaceEnc (H : List Nat → String) (gd : List Nat) (blocks : List Block)
    (s : EncState) : Except ChainError Unit × EncState :=
  if s.store.length > blocks.length then (.error .tooShort, s)
  else
    match replaceLoopE H gd blocks s.store blocks with
    | (none, st') => (.ok (), ⟨st', false⟩)
    | (some e, st') => (.error e, ⟨st', true⟩)

end Blockchain

/-! ## Digest format and byte-image lemmas -/

theorem hexOfBytes_length : ∀ bs : List Nat, (hexOfBytes bs).length = 2 * bs.length
  | [] => rfl
  | b :: rest => by
    simp [hexOfBytes, hexOfBytes_length rest]
    omega

theorem toHexDigit_mem (n : Nat) (h : n < 16) : toHexDigit n ∈ lowerHexChars := by
  unfold lowerHexChars
  exact List.mem_map.mpr ⟨n, List.mem_range.mpr h, rfl⟩

theorem hexOfBytes_mem : ∀ (bs : List Nat), ∀ c ∈ hexOfBytes bs, c ∈ lowerHexChars
  | [], c, hc => by simp [hexOfBytes] at hc
  | b :: rest, c, hc => by
    simp only [hexOfBytes, List.mem_cons] at hc
    rcases hc with hc | hc | hc
    · subst hc
      exact toHexDigit_mem _ (by omega)
    · subst hc
      exact toHexDigit_mem _ (by omega)
    · exact hexOfBytes_mem rest c hc

theorem hexEncode_lowerHex64 (bs : List Nat) (h : bs.length = 32) :
    LowerHex64 (hexEncode bs) := by
  constructor
  · show (hexOfBytes bs).length = 64
    rw [hexOfBytes_length, h]
  · exact hexOfBytes_mem bs

/-- A concrete digest function with the SHA-256-hex output format: the
input padded or truncated to 32 bytes, rendered in lowercase hex. -/
def Htoy (bs : List Nat) : String :=
  hexEncode ((bs ++ List.replicate 32 0).take 32)

theorem HGood_Htoy : HGood Htoy := by
  intro bs
  apply hexEncode_lowerHex64
  simp [List.length_take, List.length_append]

theorem zeros64_lowerHex : LowerHex64 Blockchain.zeros64 := by decide

/-! ## The byte store as the image of a decoded store -/

theorem encStore_length (st : Store Block) : (encStore st).length = st.length := by
  simp [encStore]

theorem storeGet_encStore :
    ∀ (st : Store Block) (k : Nat),
      storeGet (encStore st) k = (storeGet st k).map encBytes
  | [], _ => rfl
  | (k', b') :: rest, k => by
    by_cases hk : k = k'
    · subst hk
      simp [encStore, storeGet]
    · simp only [encStore, List.map_cons, storeGet, if_neg hk]
      exact storeGet_encStore rest k

theorem encStore_storePut :
    ∀ (st : Store Block) (k : Nat) (b : Block),
      encStore (storePut st k b) = storePut (encStore st) k (encBytes b)
  | [], _, _ => rfl
  | (k', b') :: rest, k, b => by
    by_cases h1 : k < k'
    · simp [encStore, storePut, h1]
    · by_cases h2 : k = k'
      · simp [encStore, storePut, h1, h2]
      · simp only [encStore, List.map_cons, storePut, if_neg h1, if_neg h2]
        exact congrArg (List.cons (k', encBytes b'))
          (encStore_storePut rest k b)

theorem atEnc_encStore (st : Store Block) (hin : StoreInDomain st) (k : Nat) :
    Blockchain.atEnc (encStore st) k = storeGet st k := by
  unfold Blockchain.atEnc
  rw [storeGet_encStore]
  rcases hb : storeGet st k with _ | b
  · rfl
  · obtain ⟨bytes, he, hd⟩ := encode_decode_exact b (hin k b hb)
    show decodeBlock (encBytes b) = some b
    rw [encBytes, he, Option.getD_some, hd]

theorem getLastBlockEnc_encStore (st : Store Block) (hin : StoreInDomain st) :
    Blockchain.getLastBlockEnc (encStore st) = getLastBlock st := by
  unfold Blockchain.getLastBlockEnc getLastBlock
  rw [encStore_length]
  by_cases h : st.length = 0
  · rw [if_pos h, if_pos h]
  · rw [if_neg h, if_neg h, atEnc_encStore st hin]

/-! ## Simulation: byte engine vs decoded engine on in-domain chains -/

theorem pushEnc_eq (H : List Nat → String) (d : List Nat) (now : Nat)
    (stB : Store (List Nat)) (last : Block)
    (hlast : Blockchain.getLastBlockEnc stB = some last)
    (h1 : 0 ≤ last.index + 1) (h2 : last.index + 1 < 4294967296)
    (h3 : now < 18446744073709551616) (h4 : d.length < 18446744073709551616) :
    Blockchain.pushEnc H d now stB =
      .ok (Blockchain.pushedBlock H d now last,
        storePut stB (last.index + 1).toNat
          (encBytes (Blockchain.pushedBlock H d now last))) := by
  have hcalc : calculateBlockHashE H
      { data := d, hash := "", previousHash := last.hash,
        index := last.index + 1, timestamp := now }
      = some (calculateBlockHash H
        { data := d, hash := "", previousHash := last.hash,
          index := last.index + 1, timestamp := now }) := by
    unfold calculateBlockHashE
    rw [if_pos ⟨h1, h2, h3⟩]
  have hkey : encKey (last.index + 1) = some (last.index + 1).toNat := by
    unfold encKey
    rw [if_pos ⟨h1, h2⟩]
  obtain ⟨bytes, hbe⟩ : ∃ bytes,
      encodeBlock (Blockchain.pushedBlock H d now last) = some bytes := by
    unfold encodeBlock
    rw [if_pos ⟨h1, h2, h3, h4⟩]
    exact ⟨_, rfl⟩
  unfold Blockchain.pushedBlock at hbe
  simp [Blockchain.pushEnc, hlast, hcalc, hkey, hbe, Blockchain.pushedBlock,
    encBytes]

theorem pushEnc_sim (H : List Nat → String) (d : List Nat) (now : Nat)
    (st : Store Block) (hH : HGood H) (hin : StoreInDomain st)
    (hg : GoodChain st) (hlen : st.length < 2147483648)
    (hd : d.length < 18446744073709551616)
    (hnow : now < 18446744073709551616) :
    ∃ nb st₂,
      Blockchain.push H d now ⟨st, false⟩ = .ok (nb, ⟨st₂, false⟩) ∧
      Blockchain.pushEnc H d now (encStore st) = .ok (nb, encStore st₂) ∧
      GoodChain st₂ ∧ StoreInDomain st₂ ∧ st₂.length = st.length + 1 := by
  obtain ⟨lb, hlast, hlbget, hlbidx⟩ := getLastBlock_of_goodChain st hg
  have hpos : 0 < st.length := hg.2.1
  have hidx1 : lb.index + 1 = (st.length : Int) := by
    rw [hlbidx]
    omega
  have h1 : 0 ≤ lb.index + 1 := by
    rw [hidx1]
    omega
  have h2 : lb.index + 1 < 4294967296 := by
    rw [hidx1]
    omega
  have htoNat : (lb.index + 1).toNat = st.length := by
    rw [hidx1]
    simp
  have hpidx : (Blockchain.pushedBlock H d now lb).index = lb.index + 1 := rfl
  have hpushB := push_eq_of_last H d now ⟨st, false⟩ lb hlast
  have hkeyB : (Blockchain.pushedBlock H d now lb).index.toNat = st.length := by
    rw [hpidx, htoNat]
  rw [hkeyB] at hpushB
  have hlastE : Blockchain.getLastBlockEnc (encStore st) = some lb := by
    rw [getLastBlockEnc_encStore st hin]
    exact hlast
  have hpushE := pushEnc_eq H d now (encStore st) lb hlastE h1 h2 hnow hd
  rw [htoNat, ← encStore_storePut] at hpushE
  obtain ⟨nb', s', hpush', hstore', _, hg', hlen', _, _, _, _⟩ :=
    push_preserves H d now ⟨st, false⟩ hg
  rw [hpushB] at hpush'
  cases hpush'
  refine ⟨Blockchain.pushedBlock H d now lb,
    storePut st st.length (Blockchain.pushedBlock H d now lb),
    hpushB, hpushE, ?_, ?_, ?_⟩
  · exact hg'
  · intro k b hb
    rw [storeGet_storePut] at hb
    by_cases hk : k = st.length
    · rw [if_pos hk] at hb
      cases hb
      refine ⟨?_, ?_, hnow, hd, ?_, ?_⟩
      · rw [hpidx, hidx1]
        omega
      · rw [hpidx, hidx1]
        omega
      · exact hH _
      · exact (hin (st.length - 1) lb hlbget).2.2.2.2.1
    · rw [if_neg hk] at hb
      exact hin k b hb
  · exact hlen'

theorem genesisEnc_eq_empty (H : List Nat → String) (gd : List Nat) (t0 : Nat)
    (hgd : gd.length < 18446744073709551616)
    (ht0 : t0 < 18446744073709551616) :
    Blockchain.genesisEnc H gd t0 [] =
      .ok (some (Blockchain.genesisBlock H gd t0),
        encStore [(0, Blockchain.genesisBlock H gd t0)]) := by
  have hcalc : calculateBlockHashE H
      { data := gd, hash := "", index := 0, previousHash := Blockchain.zeros64,
        timestamp := t0 }
      = some (calculateBlockHash H
        { data := gd, hash := "", index := 0,
          previousHash := Blockchain.zeros64, timestamp := t0 }) := by
    unfold calculateBlockHashE
    rw [if_pos ⟨show (0:Int) ≤ 0 by decide, show (0:Int) < 4294967296 by decide,
      ht0⟩]
  obtain ⟨bytes, hbe⟩ : ∃ bytes,
      encodeBlock (Blockchain.genesisBlock H gd t0) = some bytes := by
    unfold encodeBlock
    rw [if_pos ⟨show (0:Int) ≤ 0 by decide, show (0:Int) < 4294967296 by decide,
      ht0, hgd⟩]
    exact ⟨_, rfl⟩
  unfold Blockchain.genesisBlock at hbe
  have hempty : Blockchain.getLastBlockEnc [] = none := rfl
  simp [Blockchain.genesisEnc, hempty, hcalc, hbe, Blockchain.genesisBlock,
    encStore, encBytes, storePut]

theorem storeInDomain_genesis (H : List Nat → String) (gd : List Nat)
    (t0 : Nat) (hH : HGood H)
    (hgd : gd.length < 18446744073709551616)
    (ht0 : t0 < 18446744073709551616) :
    StoreInDomain [(0, Blockchain.genesisBlock H gd t0)] := by
  intro k b hb
  by_cases h0 : k = 0
  · subst h0
    simp only [storeGet, eq_self_iff_true, if_true, Option.some.injEq] at hb
    subst hb
    exact ⟨show (0:Int) ≤ 0 by decide, show (0:Int) < 2147483648 by decide,
      ht0, hgd, hH _, zeros64_lowerHex⟩
  · simp [storeGet, h0] at hb

theorem pushSeqEnc_sim (H : List Nat → String) (hH : HGood H) :
    ∀ (ps : List (List Nat × Nat)) (st : Store Block),
      StoreInDomain st → GoodChain st →
      st.length + ps.length ≤ 2147483648 →
      (∀ p ∈ ps, p.1.length < 18446744073709551616 ∧
        p.2 < 18446744073709551616) →
      ∃ st', Blockchain.pushSeq H ⟨st, false⟩ ps = some ⟨st', false⟩ ∧
        Blockchain.pushSeqEnc H (encStore st) ps = some (encStore st') ∧
        GoodChain st' ∧ StoreInDomain st' ∧
        st'.length = st.length + ps.length
  | [], st, hin, hg, _, _ => ⟨st, rfl, rfl, hg, hin, by simp⟩
  | (d, t) :: rest, st, hin, hg, hlen, hb => by
    have hdt := hb (d, t) (List.mem_cons_self _ _)
    obtain ⟨nb, st₂, hpB, hpE, hg₂, hin₂, hlen₂⟩ :=
      pushEnc_sim H d t st hH hin hg
        (by simp only [List.length_cons] at hlen; omega) hdt.1 hdt.2
    obtain ⟨st', hsB, hsE, hg', hin', hlen'⟩ :=
      pushSeqEnc_sim H hH rest st₂ hin₂ hg₂
        (by simp only [List.length_cons] at hlen; omega)
        (fun p hp => hb p (List.mem_cons_of_mem _ hp))
    refine ⟨st', ?_, ?_, hg', hin', ?_⟩
    · simp [Blockchain.pushSeq, hpB, hsB]
    · simp [Blockchain.pushSeqEnc, hpE, hsE]
    · simp only [List.length_cons]
      omega

theorem runChainEnc_sim (H : List Nat → String) (gd : List Nat) (t0 : Nat)
    (ps : List (List Nat × Nat)) (hH : HGood H)
    (hgd : gd.length < 18446744073709551616)
    (ht0 : t0 < 18446744073709551616)
    (hN : ps.length < 2147483648)
    (hb : ∀ p ∈ ps, p.1.length < 18446744073709551616 ∧
      p.2 < 18446744073709551616) :
    ∃ st', Blockchain.runChain H gd t0 ps = some ⟨st', false⟩ ∧
      Blockchain.runChainEnc H gd t0 ps = some (encStore st') ∧
      GoodChain st' ∧ StoreInDomain st' ∧ st'.length = ps.length + 1 := by
  have h0 : getLastBlock (Blockchain.initChain).store = none := rfl
  have hgen := genesis_eq_of_empty H gd t0 Blockchain.initChain h0
  have hgenE := genesisEnc_eq_empty H gd t0 hgd ht0
  have hgood : GoodChain [(0, Blockchain.genesisBlock H gd t0)] :=
    goodChain_singleton _ rfl
  have hindom := storeInDomain_genesis H gd t0 hH hgd ht0
  obtain ⟨st', hsB, hsE, hg', hin', hlen'⟩ :=
    pushSeqEnc_sim H hH ps [(0, Blockchain.genesisBlock H gd t0)] hindom hgood
      (by simp only [List.length_singleton]; omega) hb
  refine ⟨st', ?_, ?_, hg', hin', ?_⟩
  · unfold Blockchain.runChain
    rw [hgen]
    exact hsB
  · unfold Blockchain.runChainEnc
    rw [hgenE]
    exact hsE
  · simp only [List.length_singleton] at hlen'
    omega

theorem performValidationE_eq (H : List Nat → String) (gd : List Nat)
    (c p pm : Option Block)
    (hc : ∀ b, c = some b → 0 ≤ b.index ∧ b.index < 4294967296 ∧
      b.timestamp < 18446744073709551616) :
    Blockchain.performValidationE H gd c p pm =
      some (Blockchain.performValidation H gd c p pm) := by
  cases c with
  | none => rfl
  | some b =>
    obtain ⟨h1, h2, h3⟩ := hc b rfl
    have hcalc : calculateBlockHashE H b = some (calculateBlockHash H b) := by
      unfold calculateBlockHashE
      rw [if_pos ⟨h1, h2, h3⟩]
    simp only [Blockchain.performValidationE, Blockchain.performValidation,
      hcalc]
    by_cases hh : b.hash ≠ calculateBlockHash H b
    · simp [hh]
    · by_cases hd : b.data = gd
      · simp [hh, hd]
      · cases p with
        | none => simp [hh, hd]
        | some pb =>
          by_cases hph : b.previousHash ≠ pb.hash
          · simp [hh, hd, hph]
          · cases pm with
            | none => simp [hh, hd, hph]
            | some pmb => simp [hh, hd, hph]

theorem validateAuxE_sim (H : List Nat → String) (gd : List Nat)
    (st : Store Block) (hin : StoreInDomain st) :
    ∀ (k i : Nat) (pm : Option Block),
      Blockchain.validateAuxE H gd (encStore st) k i pm =
        some (Blockchain.validateAux H gd st k i pm)
  | 0, _, _ => rfl
  | k + 1, i, pm => by
    have hcur := atEnc_encStore st hin i
    have hprev := atEnc_encStore st hin (i - 1)
    have hpv := performValidationE_eq H gd (storeGet st i)
      (pm.orElse (fun _ => if i = 0 then none else storeGet st (i - 1))) pm
      (fun b hb => ⟨(hin i b hb).1,
        by have := (hin i b hb).2.1; omega, (hin i b hb).2.2.1⟩)
    simp only [Blockchain.validateAuxE, Blockchain.validateAux, hcur, hprev,
      hpv]
    cases hres : Blockchain.performValidation H gd (storeGet st i)
      (pm.orElse (fun _ => if i = 0 then none else storeGet st (i - 1))) pm with
    | true => simp
    | false => simp [validateAuxE_sim H gd st hin k (i + 1)
        ((storeGet st i).orElse (fun _ => pm))]

theorem validateEnc_sim (H : List Nat → String) (gd : List Nat)
    (st : Store Block) (hin : StoreInDomain st) (f : Nat) (r : Bool) :
    Blockchain.validateEnc H gd (encStore st) f =
      some (Blockchain.validate H gd ⟨st, r⟩ f) := by
  unfold Blockchain.validateEnc Blockchain.validate
  rw [encStore_length]
  exact validateAuxE_sim H gd st hin (st.length - f) f none

theorem pushSeqEnc_append (H : List Nat → String) :
    ∀ (l₁ l₂ : List (List Nat × Nat)) (stB : Store (List Nat)),
      Blockchain.pushSeqEnc H stB (l₁ ++ l₂) =
        (Blockchain.pushSeqEnc H stB l₁).bind
          (fun s => Blockchain.pushSeqEnc H s l₂)
  | [], _, _ => rfl
  | (d, t) :: rest, l₂, stB => by
    simp only [List.cons_append, Blockchain.pushSeqEnc]
    cases Blockchain.pushEnc H d t stB with
    | ok pr => exact pushSeqEnc_append H rest l₂ pr.2
    | error e => rfl

theorem runChainEnc_append (H : List Nat → String) (gd : List Nat) (t0 : Nat)
    (l₁ l₂ : List (List Nat × Nat)) :
    Blockchain.runChainEnc H gd t0 (l₁ ++ l₂) =
      (Blockchain.runChainEnc H gd t0 l₁).bind
        (fun s => Blockchain.pushSeqEnc H s l₂) := by
  unfold Blockchain.runChainEnc
  cases Blockchain.genesisEnc H gd t0 [] with
  | ok pr => exact pushSeqEnc_append H l₁ l₂ pr.2
  | error e => rfl

theorem toArrayEnc_zero (stB : Store (List Nat)) :
    Blockchain.toArrayEnc stB 0 = stB.map (fun p => decodeBlock p.2) := by
  unfold Blockchain.toArrayEnc
  induction stB with
  | nil => rfl
  | cons p rest ih => simp [List.filter, ih]

theorem foldPutsF_get {α : Type} (f : Block → α) :
    ∀ (bs : List Block) (st : Store α) (j : Nat),
      (∀ i (h : i < bs.length), (bs.get ⟨i, h⟩).index = ((j + i : Nat) : Int)) →
      ∀ m, storeGet
          (bs.foldl (fun acc b => storePut acc b.index.toNat (f b)) st) m =
        if j ≤ m ∧ m < j + bs.length then (bs.get? (m - j)).map f
        else storeGet st m
  | [], st, j, _, m => by
    simp only [List.foldl_nil, List.length_nil, Nat.add_zero]
    rw [if_neg (by omega)]
  | b :: rest, st, j, hidx, m => by
    have hb : b.index = ((j : Nat) : Int) := by simpa using hidx 0 (by simp)
    have hbn : b.index.toNat = j := by rw [hb]; simp
    have hrest : ∀ i (h : i < rest.length),
        (rest.get ⟨i, h⟩).index = ((j + 1 + i : Nat) : Int) := by
      intro i h
      have h2 := hidx (i + 1) (by simp; omega)
      have h3 : (j + (i + 1) : Nat) = (j + 1 + i : Nat) := by omega
      simpa [h3] using h2
    rw [List.foldl_cons, hbn,
      foldPutsF_get f rest (storePut st j (f b)) (j + 1) hrest m]
    by_cases h1 : j + 1 ≤ m ∧ m < j + 1 + rest.length
    · rw [if_pos h1, if_pos (by simp only [List.length_cons]; omega)]
      have hmj : m - j = (m - (j + 1)) + 1 := by omega
      rw [hmj]
      simp
    · rw [if_neg h1, storeGet_storePut]
      by_cases hmj : m = j
      · subst hmj
        rw [if_pos rfl, if_pos (by simp only [List.length_cons]; omega)]
        simp
      · rw [if_neg hmj, if_neg (by simp only [List.length_cons]; omega)]

theorem foldPutsF_WF {α : Type} (f : Block → α) :
    ∀ (bs : List Block) (st : Store α), StoreWF st →
      StoreWF (bs.foldl (fun acc b => storePut acc b.index.toNat (f b)) st)
  | [], _, h => h
  | b :: rest, st, h =>
    foldPutsF_WF f rest (storePut st b.index.toNat (f b)) (storePut_WF st _ _ h)

theorem replaceLoopE_invalid (H : List Nat → String) (gd : List Nat)
    (blocks : List Block) (st : Store (List Nat)) (b : Block)
    (rest : List Block)
    (h : Blockchain.validateReplacingBlocksE H gd blocks = some false) :
    Blockchain.replaceLoopE H gd blocks st (b :: rest) =
      (some .invalidChain, st) := by
  simp [Blockchain.replaceLoopE, h]

theorem replaceLoopE_valid (H : List Nat → String) (gd : List Nat)
    (blocks : List Block)
    (h : Blockchain.validateReplacingBlocksE H gd blocks = some true) :
    ∀ (l : List Block), (∀ b ∈ l, InDomain b) → ∀ (st : Store (List Nat)),
      Blockchain.replaceLoopE H gd blocks st l =
        (none,
          l.foldl (fun acc b => storePut acc b.index.toNat (encBytes b)) st)
  | [], _, _ => rfl
  | b :: rest, hdom, st => by
    have hb := hdom b (List.mem_cons_self _ _)
    have hkey : encKey b.index = some b.index.toNat := by
      unfold encKey
      rw [if_pos ⟨hb.1, by have := hb.2.1; omega⟩]
    obtain ⟨bytes, hbe⟩ : ∃ bytes, encodeBlock b = some bytes := by
      unfold encodeBlock
      rw [if_pos ⟨hb.1, by have := hb.2.1; omega, hb.2.2.1, hb.2.2.2.1⟩]
      exact ⟨_, rfl⟩
    have hbemap : encBytes b = bytes := by rw [encBytes, hbe]; rfl
    have hrec := replaceLoopE_valid H gd blocks h rest
      (fun b' hb' => hdom b' (List.mem_cons_of_mem _ hb'))
      (storePut st b.index.toNat (encBytes b))
    simp only [Blockchain.replaceLoopE, h, hkey, hbe, ← hbemap, hrec,
      List.foldl_cons]

/-- A second toy digest, which depends on the payload bytes (offset 44 of
the hash preimage onward), again in the SHA-256-hex output format. -/
def Htoy2 (bs : List Nat) : String :=
  hexEncode ((bs.drop 44 ++ List.replicate 32 0).take 32)

theorem HGood_Htoy2 : HGood Htoy2 := by
  intro bs
  apply hexEncode_lowerHex64
  simp [List.length_take, List.length_append]

/-! ## C2: sequential append through the codec -/

/-- C2 (amended) -- Sequential append: from a fresh chain, `genesis`
followed by `N` sequential `push` calls succeeds whenever `N < 2^31` (so
every persisted index still reads back correctly through the signed
`readInt32BE`), the timestamps and payload lengths fit 64 bits, and the
digest function renders 64-character lowercase hex (as `sha256...hex`
does); then `length() = N + 1` and for every `i` in `1..N` the block read
back at key `i` carries index `i` and `previousHash` equal to the hash of
the block read back at key `i - 1`.  The original claim, for arbitrary
`N`, is refuted at `N = 2^31` by `c2_index_wrap_cex`. -/
theorem c2_sequential_append_amended (H : List Nat → String) (gd : List Nat)
    (t0 : Nat) (ps : List (List Nat × Nat)) (hH : HGood H)
    (hgd : gd.length < 18446744073709551616)
    (ht0 : t0 < 18446744073709551616)
    (hN : ps.length < 2147483648)
    (hb : ∀ p ∈ ps, p.1.length < 18446744073709551616 ∧
      p.2 < 18446744073709551616) :
    ∃ stB, Blockchain.runChainEnc H gd t0 ps = some stB ∧
      storeLen stB = ps.length + 1 ∧
      ∀ i, 1 ≤ i → i ≤ ps.length →
        ∃ b pb, Blockchain.atEnc stB i = some b ∧
          Blockchain.atEnc stB (i - 1) = some pb ∧
          b.index = (i : Int) ∧ b.previousHash = pb.hash := by
  obtain ⟨st', hrB, hrE, hg', hin', hlen'⟩ :=
    runChainEnc_sim H gd t0 ps hH hgd ht0 hN hb
  refine ⟨encStore st', hrE, ?_, ?_⟩
  · unfold storeLen
    rw [encStore_length, hlen']
  · intro i h1 h2
    obtain ⟨hwf, hpos, hcontig, hidx, hlink⟩ := hg'
    have hi : (storeGet st' i).isSome := (hcontig i).mp (by omega)
    have hi1 : (storeGet st' (i - 1)).isSome := (hcontig (i - 1)).mp (by omega)
    obtain ⟨b, hbi⟩ := Option.isSome_iff_exists.mp hi
    obtain ⟨pb, hpb⟩ := Option.isSome_iff_exists.mp hi1
    refine ⟨b, pb, ?_, ?_, hidx i b hbi, ?_⟩
    · rw [atEnc_encStore st' hin']
      exact hbi
    · rw [atEnc_encStore st' hin']
      exact hpb
    · have hsucc : i - 1 + 1 = i := by omega
      exact hlink (i - 1) pb b hpb (by rw [hsucc]; exact hbi)

/-- Witness for C2 (amended) at a concrete chain of two appends. -/
theorem c2_sequential_append_amended_witness :
    ∃ stB, Blockchain.runChainEnc Htoy [7] 0 [([1], 1), ([2], 2)] = some stB ∧
      storeLen stB = [([1], 1), ([2], 2)].length + 1 ∧
      ∀ i, 1 ≤ i → i ≤ [([1], 1), ([2], 2)].length →
        ∃ b pb, Blockchain.atEnc stB i = some b ∧
          Blockchain.atEnc stB (i - 1) = some pb ∧
          b.index = (i : Int) ∧ b.previousHash = pb.hash :=
  c2_sequential_append_amended Htoy [7] 0 [([1], 1), ([2], 2)] HGood_Htoy
    (by decide) (by decide) (by decide) (by decide)

/-- Counterexample to C2 as stated: with `N = 2^31` appends the last append
still succeeds (the writer uses the unsigned `writeUInt32BE`), but the
block it persisted reads back through the signed `readInt32BE` with index
`-2^31`, not `2^31` as the claim requires. -/
theorem c2_index_wrap_cex :
    (Blockchain.runChainEnc Htoy [] 0
        (List.replicate 2147483648 ([], 1))).bind
      (fun stB => (Blockchain.atEnc stB 2147483648).map Block.index)
      = some (-2147483648 : Int) := by
  have hsplit : List.replicate 2147483648 (([], 1) : List Nat × Nat) =
      List.replicate 2147483647 (([], 1) : List Nat × Nat)
        ++ [(([], 1) : List Nat × Nat)] := by
    rw [show (2147483648 : Nat) = 2147483647 + 1 from rfl,
      List.replicate_succ']
  obtain ⟨st', hrB, hrE, hg', hin', hlen'⟩ :=
    runChainEnc_sim Htoy [] 0 (List.replicate 2147483647 ([], 1)) HGood_Htoy
      (by decide) (by decide)
      (by rw [List.length_replicate]; omega)
      (fun p hp => by
        have hpe := List.eq_of_mem_replicate hp
        subst hpe
        exact ⟨by decide, by decide⟩)
  have hlen2 : st'.length = 2147483648 := by
    rw [hlen', List.length_replicate]
  obtain ⟨lb, hlast, hlbget, hlbidx⟩ := getLastBlock_of_goodChain st' hg'
  have hlbidx' : lb.index = 2147483647 := by
    rw [hlbidx, hlen2]
    norm_num
  have hlastE : Blockchain.getLastBlockEnc (encStore st') = some lb := by
    rw [getLastBlockEnc_encStore st' hin']
    exact hlast
  have hp := pushEnc_eq Htoy [] 1 (encStore st') lb hlastE
    (by omega) (by omega) (by omega) (by decide)
  have hkey : (lb.index + 1).toNat = 2147483648 := by
    rw [hlbidx']
    rfl
  rw [hkey] at hp
  set nb := Blockchain.pushedBlock Htoy [] 1 lb with hnbdef
  have hnbidx : nb.index = 2147483648 := by
    show lb.index + 1 = 2147483648
    omega
  have hlbdom := hin' (st'.length - 1) lb hlbget
  obtain ⟨bytes, henc, hdec⟩ := decode_encode_general nb
    (by omega) (by omega)
    (by show (1 : Nat) < 18446744073709551616; omega)
    (by show (0 : Nat) < 18446744073709551616; omega)
    (HGood_Htoy _) hlbdom.2.2.2.2.1
  have hbytes : encBytes nb = bytes := by
    rw [encBytes, henc]
    rfl
  have hdec' : decodeBlock (encBytes nb) =
      some { nb with index := -2147483648 } := by
    rw [hbytes, hdec, hnbidx]
    norm_num
  rw [hsplit, runChainEnc_append, hrE]
  show (Blockchain.pushSeqEnc Htoy (encStore st') [([], 1)]).bind
    (fun stB => (Blockchain.atEnc stB 2147483648).map Block.index)
    = some (-2147483648 : Int)
  rw [Blockchain.pushSeqEnc, hp]
  show (Blockchain.atEnc
      (storePut (encStore st') 2147483648 (encBytes nb)) 2147483648).map
      Block.index = some (-2147483648 : Int)
  unfold Blockchain.atEnc
  rw [storeGet_storePut, if_pos rfl]
  rw [Option.some_bind, hdec']
  rfl

/-! ## C3: chain replacement through the codec -/

instance {ε α : Type} [DecidableEq ε] [DecidableEq α] :
    DecidableEq (Except ε α) := fun x y =>
  match x, y with
  | .ok a, .ok b =>
    if h : a = b then isTrue (by rw [h])
    else isFalse (fun he => h (by cases he; rfl))
  | .ok _, .error _ => isFalse (fun he => Except.noConfusion he)
  | .error _, .ok _ => isFalse (fun he => Except.noConfusion he)
  | .error e, .error f =>
    if h : e = f then isTrue (by rw [h])
    else isFalse (fun he => h (by cases he; rfl))

/-- The candidate block refuting C3 as stated: genesis payload (so the
validation pass exempts it from linkage checks), a correct self-hash, and
an uppercase-hex `previousHash`. -/
def c3CexBlock : Block :=
  { index := 0, timestamp := 5,
    hash := calculateBlockHash Htoy
      { index := 0, timestamp := 5, hash := "",
        previousHash := ⟨List.replicate 64 'A'⟩, data := [7] },
    previousHash := ⟨List.replicate 64 'A'⟩, data := [7] }

/-- Counterexample to C3 as stated: the candidate list `[c3CexBlock]` is
independently valid (the validation pass accepts it) and at least as long
as the empty current chain, and `replace` succeeds — yet afterwards the
chain does not read back as the candidate list, because the decoder
re-renders the stored uppercase-hex `previousHash` in lowercase. -/
theorem c3_replacement_cex :
    Blockchain.validateReplacingBlocksE Htoy [7] [c3CexBlock] = some true ∧
    (Blockchain.replaceEnc Htoy [7] [c3CexBlock] ⟨[], false⟩).1 = .ok () ∧
    Blockchain.toArrayEnc
        (Blockchain.replaceEnc Htoy [7] [c3CexBlock] ⟨[], false⟩).2.store 0
      ≠ [some c3CexBlock] := by
  decide

/-- C3 (amended) -- Chain replacement law through the codec: a candidate
list shorter than the current chain is rejected with the too-short error
leaving the state untouched; a non-empty candidate list on which the
validation pass returns `false` is rejected with the invalid-chain error
without writing anything (only the `isReplacing` flag remains set); and a
candidate list that passes validation, whose blocks lie in the codec
round-trip domain (signed-32-bit indices, 64-bit timestamps and data
lengths, 64-character lowercase-hex digests) and carry indices `0..m-1`,
at least as long as the contiguous current chain, is adopted so that the
stored chain reads back exactly as the candidate list.  The original
claim, which promised read-back equality for every independently valid
candidate list, is refuted by `c3_replacement_cex`. -/
theorem c3_replacement_amended :
    (∀ (H : List Nat → String) (gd : List Nat) (blocks : List Block)
        (s : Blockchain.EncState),
      blocks.length < s.store.length →
      Blockchain.replaceEnc H gd blocks s = (.error .tooShort, s)) ∧
    (∀ (H : List Nat → String) (gd : List Nat) (blocks : List Block)
        (s : Blockchain.EncState),
      blocks ≠ [] → s.store.length ≤ blocks.length →
      Blockchain.validateReplacingBlocksE H gd blocks = some false →
      Blockchain.replaceEnc H gd blocks s =
        (.error .invalidChain, ⟨s.store, true⟩)) ∧
    (∀ (H : List Nat → String) (gd : List Nat) (blocks : List Block)
        (s : Blockchain.EncState),
      StoreWF s.store → Contig s.store → s.store.length ≤ blocks.length →
      Blockchain.validateReplacingBlocksE H gd blocks = some true →
      (∀ b ∈ blocks, InDomain b) →
      (∀ i (h : i < blocks.length), (blocks.get ⟨i, h⟩).index = (i : Int)) →
      ∃ st', Blockchain.replaceEnc H gd blocks s = (.ok (), ⟨st', false⟩) ∧
        Blockchain.toArrayEnc st' 0 = blocks.map some) := by
  refine ⟨?_, ?_, ?_⟩
  · intro H gd blocks s hlt
    simp [Blockchain.replaceEnc, hlt]
  · intro H gd blocks s hne hle hval
    obtain ⟨b, rest, rfl⟩ := List.exists_cons_of_ne_nil hne
    rw [Blockchain.replaceEnc, if_neg (by omega),
      replaceLoopE_invalid H gd _ s.store b rest hval]
  · intro H gd blocks s hwf hcontig hle hval hdom hidx
    refine ⟨blocks.foldl
      (fun acc b => storePut acc b.index.toNat (encBytes b)) s.store, ?_, ?_⟩
    · rw [Blockchain.replaceEnc, if_neg (by omega),
        replaceLoopE_valid H gd blocks hval blocks hdom s.store]
    · have hidx' : ∀ i (h : i < blocks.length),
          (blocks.get ⟨i, h⟩).index = ((0 + i : Nat) : Int) := by
        intro i h
        simpa using hidx i h
      have hget : ∀ m,
          storeGet (blocks.foldl
            (fun acc b => storePut acc b.index.toNat (encBytes b)) s.store) m
          = storeGet (enumChain 0 (blocks.map encBytes)) m := by
        intro m
        rw [foldPutsF_get encBytes blocks s.store 0 hidx' m,
          enumChain_get (blocks.map encBytes) 0 m]
        by_cases hm : m < blocks.length
        · rw [if_pos (by omega),
            if_pos (by simp only [List.length_map]; omega)]
          simp [List.get?_map]
        · rw [if_neg (by omega),
            if_neg (by simp only [List.length_map]; omega)]
          exact contig_get_none s.store hcontig m (by omega)
      have heq := store_ext _ _
        (foldPutsF_WF encBytes blocks s.store hwf)
        (enumChain_WF (blocks.map encBytes) 0) hget
      rw [heq, toArrayEnc_zero]
      have h1 : (enumChain 0 (blocks.map encBytes)).map
            (fun p => decodeBlock p.2)
          = ((enumChain 0 (blocks.map encBytes)).map Prod.snd).map
              decodeBlock := by
        rw [List.map_map]
        rfl
      rw [h1, enumChain_map_snd, List.map_map]
      apply List.map_congr_left
      intro b hbmem
      obtain ⟨bytes, he, hd⟩ := encode_decode_exact b (hdom b hbmem)
      show decodeBlock (encBytes b) = some b
      rw [encBytes, he, Option.getD_some, hd]

/-- Witness for C3 (amended) at concrete chains: a too-short candidate, an
invalid candidate, and a valid in-domain one-block candidate adopted
wholesale. -/
theorem c3_replacement_amended_witness :
    Blockchain.replaceEnc Htoy [7] []
        ⟨encStore [(0, Blockchain.genesisBlock Htoy [7] 0)], false⟩
      = (.error .tooShort,
          ⟨encStore [(0, Blockchain.genesisBlock Htoy [7] 0)], false⟩) ∧
    Blockchain.replaceEnc Htoy [7]
        [{ index := 0, timestamp := 5, hash := "xx", previousHash := "00",
           data := [9] }] ⟨[], false⟩
      = (.error .invalidChain, ⟨[], true⟩) ∧
    ∃ st', Blockchain.replaceEnc Htoy [7]
        [Blockchain.genesisBlock Htoy [7] 5] ⟨[], false⟩
        = (.ok (), ⟨st', false⟩) ∧
      Blockchain.toArrayEnc st' 0
        = [Blockchain.genesisBlock Htoy [7] 5].map some := by
  refine ⟨?_, ?_, ?_⟩
  · exact c3_replacement_amended.1 Htoy [7] [] _ (by decide)
  · exact c3_replacement_amended.2.1 Htoy [7] _ ⟨[], false⟩
      (by decide) (by decide) (by decide)
  · refine c3_replacement_amended.2.2 Htoy [7] _ ⟨[], false⟩
      (by simp [StoreWF]) (by intro k; simp [storeGet]) (by decide)
      (by decide) (by decide) ?_
    intro i h
    have hi : i = 0 := by
      simp only [List.length_cons, List.length_nil] at h
      omega
    subst hi
    rfl

/-! ## C4: validation soundness through the codec -/

/-- Counterexample to C4 as stated: a chain produced solely by `genesis`
followed by two appends that obtain the same clock value
(`new Date().getTime()` can repeat within a millisecond) is declared
invalid by `validate`, with no tampering at all. -/
theorem c4_equal_timestamps_cex :
    (Blockchain.runChainEnc Htoy [7] 0 [([1], 1), ([2], 1)]).bind
      (fun stB => Blockchain.validateEnc Htoy [7] stB 0) = some false := by
  decide

/-- C4 (amended) -- Validation soundness through the codec: `validate()`
returns `true` on every chain produced by `genesis` followed by fewer than
`2^31` appends whose timestamps strictly increase (starting strictly after
the genesis timestamp) with 64-bit payload lengths and timestamps, under a
digest function with the SHA-256-hex output format; and it returns `false`
after the stored record of one block is overwritten with the encoding of
that block with its `hash` field replaced by any other 64-character
lowercase-hex string, or with its `data` field replaced by a payload whose
recomputed digest differs from the stored digest (no hash collision).  The
per-block checks are recomputed-hash equality, `previousHash` linkage, and
a strictly-greater timestamp versus the last block that passed in the same
pass.  The original claim, which promised `validate() = true` for
arbitrary append timestamps, is refuted by `c4_equal_timestamps_cex`. -/
theorem c4_validation_soundness_amended :
    (∀ (H : List Nat → String) (gd : List Nat) (t0 : Nat)
        (ps : List (List Nat × Nat)),
      HGood H → gd.length < 18446744073709551616 →
      t0 < 18446744073709551616 → ps.length < 2147483648 →
      (∀ p ∈ ps, p.1.length < 18446744073709551616 ∧
        p.2 < 18446744073709551616) →
      List.Chain (fun a b => a < b) t0 (ps.map Prod.snd) →
      ∃ stB, Blockchain.runChainEnc H gd t0 ps = some stB ∧
        Blockchain.validateEnc H gd stB 0 = some true) ∧
    (∀ (H : List Nat → String) (gd : List Nat) (st : Store Block) (j : Nat)
        (b : Block) (h2 : String),
      StoreWF st → Contig st → StoreInDomain st → storeGet st j = some b →
      b.hash = calculateBlockHash H b → LowerHex64 h2 → h2 ≠ b.hash →
      Blockchain.validateEnc H gd
        (storePut (encStore st) j (encBytes { b with hash := h2 })) 0
        = some false) ∧
    (∀ (H : List Nat → String) (gd : List Nat) (st : Store Block) (j : Nat)
        (b : Block) (d2 : List Nat),
      StoreWF st → Contig st → StoreInDomain st → storeGet st j = some b →
      b.hash = calculateBlockHash H b →
      d2.length < 18446744073709551616 →
      calculateBlockHash H { b with data := d2 } ≠ calculateBlockHash H b →
      Blockchain.validateEnc H gd
        (storePut (encStore st) j (encBytes { b with data := d2 })) 0
        = some false) := by
  refine ⟨?_, ?_, ?_⟩
  · intro H gd t0 ps hH hgd ht0 hN hb hchain
    obtain ⟨st', hrB, hrE, hg', hin', hlen'⟩ :=
      runChainEnc_sim H gd t0 ps hH hgd ht0 hN hb
    refine ⟨encStore st', hrE, ?_⟩
    rw [validateEnc_sim H gd st' hin' 0 false,
      runChain_validate_true H gd t0 ps ⟨st', false⟩ hchain hrB]
  · intro H gd st j b h2 hwf hcontig hin hb hhash hlh hne
    have hdomb := hin j b hb
    have hin2 : StoreInDomain (storePut st j { b with hash := h2 }) := by
      intro k c hc
      rw [storeGet_storePut] at hc
      by_cases hk : k = j
      · rw [if_pos hk] at hc
        cases hc
        exact ⟨hdomb.1, hdomb.2.1, hdomb.2.2.1, hdomb.2.2.2.1, hlh,
          hdomb.2.2.2.2.2⟩
      · rw [if_neg hk] at hc
        exact hin k c hc
    rw [← encStore_storePut,
      validateEnc_sim H gd (storePut st j { b with hash := h2 }) hin2 0 false,
      validate_false_of_corrupt H gd st j b { b with hash := h2 } hwf hcontig
        hb (by
          show ({ b with hash := h2 } : Block).hash
            ≠ calculateBlockHash H { b with hash := h2 }
          rw [calculateBlockHash_hash_irrel, ← hhash]
          exact hne)]
  · intro H gd st j b d2 hwf hcontig hin hb hhash hd2 hcol
    have hdomb := hin j b hb
    have hin2 : StoreInDomain (storePut st j { b with data := d2 }) := by
      intro k c hc
      rw [storeGet_storePut] at hc
      by_cases hk : k = j
      · rw [if_pos hk] at hc
        cases hc
        exact ⟨hdomb.1, hdomb.2.1, hdomb.2.2.1, hd2, hdomb.2.2.2.2.1,
          hdomb.2.2.2.2.2⟩
      · rw [if_neg hk] at hc
        exact hin k c hc
    rw [← encStore_storePut,
      validateEnc_sim H gd (storePut st j { b with data := d2 }) hin2 0 false,
      validate_false_of_corrupt H gd st j b { b with data := d2 } hwf hcontig
        hb (by
          show ({ b with data := d2 } : Block).hash
            ≠ calculateBlockHash H { b with data := d2 }
          intro he
          exact hcol (by rw [← he, hhash]))]

/-- Witness for C4 (amended) at concrete inputs, under the payload-sensitive
toy digest. -/
theorem c4_validation_soundness_amended_witness :
    (∃ stB, Blockchain.runChainEnc Htoy2 [7] 0 [([1], 1), ([2], 2)]
        = some stB ∧ Blockchain.validateEnc Htoy2 [7] stB 0 = some true) ∧
    Blockchain.validateEnc Htoy2 [7]
      (storePut (encStore [(0, Blockchain.genesisBlock Htoy2 [7] 0)]) 0
        (encBytes { Blockchain.genesisBlock Htoy2 [7] 0 with
          hash := ⟨List.replicate 64 'f'⟩ })) 0 = some false ∧
    Blockchain.validateEnc Htoy2 [7]
      (storePut (encStore [(0, Blockchain.genesisBlock Htoy2 [7] 0)]) 0
        (encBytes { Blockchain.genesisBlock Htoy2 [7] 0 with
          data := [9] })) 0 = some false := by
  refine ⟨?_, ?_, ?_⟩
  · exact c4_validation_soundness_amended.1 Htoy2 [7] 0 [([1], 1), ([2], 2)]
      HGood_Htoy2 (by decide) (by decide) (by decide) (by decide)
      (List.Chain.cons (by omega) (List.Chain.cons (by omega) List.Chain.nil))
  · exact c4_validation_soundness_amended.2.1 Htoy2 [7]
      [(0, Blockchain.genesisBlock Htoy2 [7] 0)] 0
      (Blockchain.genesisBlock Htoy2 [7] 0) ⟨List.replicate 64 'f'⟩
      (by simp [StoreWF]) (contig_singleton _)
      (storeInDomain_genesis Htoy2 [7] 0 HGood_Htoy2 (by decide) (by decide))
      rfl rfl (by decide) (by decide)
  · exact c4_validation_soundness_amended.2.2 Htoy2 [7]
      [(0, Blockchain.genesisBlock Htoy2 [7] 0)] 0
      (Blockchain.genesisBlock Htoy2 [7] 0) [9]
      (by simp [StoreWF]) (contig_singleton _)
      (storeInDomain_genesis Htoy2 [7] 0 HGood_Htoy2 (by decide) (by decide))
      rfl rfl (by decide) (by decide)
